import Mathlib

/-!
Verification of the core module of PubMed-Author-Scan
(`pubmed_authorscan/core.py`).

Modelling conventions:
* Python strings are modelled as lists of characters (`Chars`); Python
  values that may be `None` are modelled as `Option`.
* Python truthiness of an optional string (`None` and `""` are falsy) is
  the predicate `pyTruthy`.
* `str.lower()` is modelled by mapping `Char.toLower` (ASCII case folding;
  all keywords involved are ASCII-lowercase already).
* Network interaction is modelled by explicit response oracles passed to
  the functions that perform requests; an HTTP response is either a
  transport error (`HttpResult.err`), or a status code together with an
  optional decoded body (`none` modelling an undecodable body, whose
  decoding raises and is caught).
-/

abbrev Chars := List Char

def lit (s : String) : Chars := s.toList

/-- Python truthiness of an optional string: `None` and `""` are falsy. -/
def pyTruthy : Option Chars → Bool
  | none => false
  | some s => !s.isEmpty

/-- Model of `str.lower()` (ASCII case folding). -/
def toLowerStr (s : Chars) : Chars := s.map Char.toLower

/-- `leadsWith n h` decides whether `n` is an initial segment of `h`. -/
def leadsWith : Chars → Chars → Bool
  | [], _ => true
  | _ :: _, [] => false
  | a :: as, b :: bs => a == b && leadsWith as bs

/-- `hasSub hay needle` models Python's substring test `needle in hay`. -/
def hasSub : Chars → Chars → Bool
  | [], needle => needle.isEmpty
  | c :: t, needle => leadsWith needle (c :: t) || hasSub t needle

/-- The list of truthy texts among optional strings; models Python
comprehensions and `filter(None, ...)` that keep only truthy entries. -/
def truthyTexts (l : List (Option Chars)) : List Chars :=
  l.filterMap fun o =>
    match o with
    | some s => if s.isEmpty then none else some s
    | none => none

/-- `ACADEMIC_KEYWORDS` from `core.py`. -/
def ACADEMIC_KEYWORDS : List Chars :=
  [lit "university", lit "college", lit "institute", lit "school",
   lit "hospital", lit "faculty", lit "department", lit "center",
   lit "centre", lit "academy", lit "université", lit "universidad",
   lit "università", lit "clinic"]

/-- `PHARMA_KEYWORDS` from `core.py`. -/
def PHARMA_KEYWORDS : List Chars :=
  [lit "pharma", lit "biotech", lit "therapeutics", lit "laboratories",
   lit "inc", lit "ltd", lit "gmbh", lit "s.a.", lit "s.r.l.",
   lit "corp", lit "llc"]

/-- `is_non_academic_affiliation` from `core.py`. -/
def is_non_academic_affiliation (affil : Option Chars) : Bool :=
  match affil with
  | none => false
  | some a =>
    if a.isEmpty then false
    else
      let al := toLowerStr a
      if ACADEMIC_KEYWORDS.any fun w => hasSub al w then false
      else if PHARMA_KEYWORDS.any fun w => hasSub al w then true
      else false

theorem leadsWith_iff (n h : Chars) : leadsWith n h = true ↔ ∃ t, h = n ++ t := by
  induction n generalizing h with
  | nil => simp [leadsWith]
  | cons a as ih =>
    cases h with
    | nil => simp [leadsWith]
    | cons b bs =>
      simp only [leadsWith, Bool.and_eq_true, beq_iff_eq, ih bs]
      constructor
      · rintro ⟨rfl, t, rfl⟩; exact ⟨t, rfl⟩
      · rintro ⟨t, ht⟩
        cases ht
        exact ⟨rfl, t, rfl⟩

theorem hasSub_iff (hay n : Chars) : hasSub hay n = true ↔ ∃ l r, hay = l ++ n ++ r := by
  induction hay with
  | nil =>
    simp only [hasSub, List.isEmpty_iff]
    constructor
    · rintro rfl; exact ⟨[], [], rfl⟩
    · rintro ⟨l, r, h⟩
      rcases List.append_eq_nil.mp (List.append_eq_nil.mp h.symm).1 with ⟨_, h2⟩
      exact h2
  | cons c t ih =>
    simp only [hasSub, Bool.or_eq_true, leadsWith_iff, ih]
    constructor
    · rintro (⟨r, hr⟩ | ⟨l, r, hr⟩)
      · exact ⟨[], r, by simp [hr]⟩
      · exact ⟨c :: l, r, by simp [hr]⟩
    · rintro ⟨l, r, hr⟩
      cases l with
      | nil => exact Or.inl ⟨r, by simpa using hr⟩
      | cons x xs =>
        simp only [List.cons_append, List.cons.injEq] at hr
        exact Or.inr ⟨xs, r, by simp [hr.2]⟩

/-- C3: `is_non_academic_affiliation` is `false` on absent input, and on a
present string it is `true` exactly when the string is non-empty, no
academic keyword occurs in its lowercasing, and some commercial keyword
does; in particular empty strings, strings containing an academic keyword
(even alongside a commercial one), and strings with no commercial keyword
are all classified `false`. -/
theorem c3_classifier_characterization :
    is_non_academic_affiliation none = false ∧
    ∀ a : Chars,
      (is_non_academic_affiliation (some a) = true ↔
        a ≠ [] ∧
        (∀ w ∈ ACADEMIC_KEYWORDS, ¬ ∃ l r, toLowerStr a = l ++ w ++ r) ∧
        (∃ w ∈ PHARMA_KEYWORDS, ∃ l r, toLowerStr a = l ++ w ++ r)) := by
  refine ⟨rfl, fun a => ?_⟩
  simp only [is_non_academic_affiliation]
  cases hemp : a.isEmpty with
  | true =>
    simp only [if_true]
    simp [List.isEmpty_iff.mp hemp]
  | false =>
    simp only [Bool.false_eq_true, if_false]
    cases hac : ACADEMIC_KEYWORDS.any fun w => hasSub (toLowerStr a) w with
    | true =>
      simp only [if_true, Bool.false_eq_true, false_iff]
      rw [List.any_eq_true] at hac
      obtain ⟨w, hw, hsub⟩ := hac
      rw [hasSub_iff] at hsub
      rintro ⟨-, hno, -⟩
      exact absurd hsub (hno w hw)
    | false =>
      simp only [Bool.false_eq_true, if_false]
      rw [List.any_eq_false] at hac
      cases hph : PHARMA_KEYWORDS.any fun w => hasSub (toLowerStr a) w with
      | true =>
        simp only [if_true, true_iff]
        rw [List.any_eq_true] at hph
        obtain ⟨w, hw, hsub⟩ := hph
        refine ⟨fun h => by simp [h] at hemp, ?_, ⟨w, hw, (hasSub_iff _ _).mp hsub⟩⟩
        intro w' hw' hocc
        exact absurd ((hasSub_iff _ _).mpr hocc) (by simpa using hac w' hw')
      | false =>
        simp only [Bool.false_eq_true, if_false, false_iff]
        rw [List.any_eq_false] at hph
        rintro ⟨-, -, w, hw, hocc⟩
        exact absurd ((hasSub_iff _ _).mpr hocc) (by simpa using hph w hw)

/-! ### The email regex of `core.py`

`re.search(r"[A-Za-z0-9._%+-]+@[A-Za-z0-9.-]+\.[A-Za-z]{2,}", text)` is
modelled by `searchEmail`, which tries the pattern at each start position
from the left (`matchEmailHere`), with Python's greedy/backtracking
semantics: the local part is a maximal run (no shorter run can be followed
by `@` since `@` is not a local character), the domain run backtracks from
its maximal length looking for a literal dot followed by at least two
letters, and the TLD run is maximal. -/

def isLocalChar (c : Char) : Bool :=
  c.isAlpha || c.isDigit || c == '.' || c == '_' || c == '%' || c == '+' || c == '-'

def isDomainChar (c : Char) : Bool :=
  c.isAlpha || c.isDigit || c == '.' || c == '-'

/-- Backtracking for `[A-Za-z0-9.-]+\.[A-Za-z]{2,}`: try domain-run
lengths from `d` down to `1`; at each length require a literal `'.'`
followed by a maximal run of at least two letters. -/
def tryDomain (rest : Chars) : Nat → Option Chars
  | 0 => none
  | d + 1 =>
    match rest.drop (d + 1) with
    | '.' :: after =>
      if 2 ≤ (after.takeWhile Char.isAlpha).length then
        some (rest.take (d + 1) ++ '.' :: after.takeWhile Char.isAlpha)
      else tryDomain rest d
    | _ => tryDomain rest d

/-- Attempt the email pattern at the start of `s`. -/
def matchEmailHere (s : Chars) : Option Chars :=
  let lp := s.takeWhile isLocalChar
  if lp.isEmpty then none
  else
    match s.drop lp.length with
    | '@' :: rest =>
      match tryDomain rest (rest.takeWhile isDomainChar).length with
      | some dm => some (lp ++ '@' :: dm)
      | none => none
    | _ => none

/-- Leftmost search of the email pattern, as `re.search` does. -/
def searchEmail : Chars → Option Chars
  | [] => none
  | c :: t =>
    match matchEmailHere (c :: t) with
    | some m => some m
    | none => searchEmail t

/-- `extract_email_from_affil` from `core.py`. -/
def extract_email_from_affil (affil : Chars) : Option Chars := searchEmail affil

/-- Spec-level shape of a match of the email regex: non-empty local part,
`@`, non-empty domain run, a dot, and a TLD of at least two letters. -/
def emailShaped (e : Chars) : Prop :=
  ∃ lp dm tld, e = lp ++ '@' :: (dm ++ '.' :: tld) ∧
    lp ≠ [] ∧ (∀ c ∈ lp, isLocalChar c = true) ∧
    dm ≠ [] ∧ (∀ c ∈ dm, isDomainChar c = true) ∧
    2 ≤ tld.length ∧ (∀ c ∈ tld, c.isAlpha = true)

theorem mem_takeWhile_pred {p : Char → Bool} :
    ∀ {l : Chars} {c : Char}, c ∈ l.takeWhile p → p c = true := by
  intro l
  induction l with
  | nil => intro c h; simp [List.takeWhile] at h
  | cons x xs ih =>
    intro c h
    by_cases hx : p x
    · rw [List.takeWhile_cons_of_pos hx] at h
      rcases List.mem_cons.mp h with rfl | h
      · exact hx
      · exact ih h
    · rw [List.takeWhile_cons_of_neg hx] at h
      simp at h

theorem takeWhile_append_cons {p : Char → Bool} {x : Char} :
    ∀ (l r : Chars), (∀ c ∈ l, p c = true) → p x = false →
      (l ++ x :: r).takeWhile p = l := by
  intro l r hl hx
  induction l with
  | nil => simp [List.takeWhile, hx]
  | cons a as ih =>
    have ha : p a = true := hl a (by simp)
    simp only [List.cons_append, List.takeWhile_cons_of_pos ha]
    rw [ih fun c hc => hl c (by simp [hc])]

theorem take_pred_of_le_takeWhile_length {p : Char → Bool} :
    ∀ (l : Chars) (d : Nat), d ≤ (l.takeWhile p).length →
      ∀ c ∈ l.take d, p c = true := by
  intro l
  induction l with
  | nil => intro d _ c hc; simp at hc
  | cons x xs ih =>
    intro d hd c hc
    by_cases hx : p x
    · rw [List.takeWhile_cons_of_pos hx] at hd
      cases d with
      | zero => simp at hc
      | succ e =>
        rw [List.take_succ_cons] at hc
        rcases List.mem_cons.mp hc with rfl | hc
        · exact hx
        · exact ih e (Nat.le_of_succ_le_succ hd) c hc
    · rw [List.takeWhile_cons_of_neg hx] at hd
      simp at hd
      subst hd
      simp at hc

theorem le_length_takeWhile_append {p : Char → Bool} :
    ∀ (l r : Chars), (∀ c ∈ l, p c = true) →
      l.length ≤ ((l ++ r).takeWhile p).length := by
  intro l r hl
  induction l with
  | nil => simp
  | cons a as ih =>
    have ha : p a = true := hl a (by simp)
    simp only [List.cons_append, List.takeWhile_cons_of_pos ha, List.length_cons]
    exact Nat.succ_le_succ (ih fun c hc => hl c (by simp [hc]))

theorem tryDomain_some {rest : Chars} :
    ∀ {d : Nat} {dm : Chars}, tryDomain rest d = some dm →
      ∃ d1 after, 1 ≤ d1 ∧ d1 ≤ d ∧ rest.drop d1 = '.' :: after ∧
        2 ≤ (after.takeWhile Char.isAlpha).length ∧
        dm = rest.take d1 ++ '.' :: after.takeWhile Char.isAlpha := by
  intro d
  induction d with
  | zero => intro dm h; simp [tryDomain] at h
  | succ e ih =>
    intro dm h
    unfold tryDomain at h
    split at h
    next after heq =>
      split at h
      next hlen =>
        refine ⟨e + 1, after, Nat.succ_le_succ (Nat.zero_le e), Nat.le_refl _, heq, hlen, ?_⟩
        simpa using h.symm
      next hlen =>
        obtain ⟨d1, after1, h1, h2, h3, h4, h5⟩ := ih h
        exact ⟨d1, after1, h1, Nat.le_succ_of_le h2, h3, h4, h5⟩
    next =>
      obtain ⟨d1, after1, h1, h2, h3, h4, h5⟩ := ih h
      exact ⟨d1, after1, h1, Nat.le_succ_of_le h2, h3, h4, h5⟩

theorem tryDomain_isSome {rest : Chars} :
    ∀ {d d1 : Nat} {after : Chars}, 1 ≤ d1 → d1 ≤ d →
      rest.drop d1 = '.' :: after →
      2 ≤ (after.takeWhile Char.isAlpha).length →
      (tryDomain rest d).isSome = true := by
  intro d
  induction d with
  | zero => intro d1 after h1 h2 _ _; omega
  | succ e ih =>
    intro d1 after h1 h2 hdrop hlen
    unfold tryDomain
    split
    next after' heq =>
      split
      next => simp
      next hlen' =>
        rcases Nat.lt_or_ge d1 (e + 1) with hlt | hge
        · exact ih h1 (Nat.le_of_lt_succ hlt) hdrop hlen
        · have : d1 = e + 1 := Nat.le_antisymm h2 hge
          subst this
          rw [hdrop] at heq
          cases heq
          exact absurd hlen hlen'
    next hne =>
      rcases Nat.lt_or_ge d1 (e + 1) with hlt | hge
      · exact ih h1 (Nat.le_of_lt_succ hlt) hdrop hlen
      · have : d1 = e + 1 := Nat.le_antisymm h2 hge
        subst this
        exact absurd hdrop (hne after)

theorem matchEmailHere_shaped : ∀ {s e : Chars}, matchEmailHere s = some e → emailShaped e := by
  intro s e h
  simp only [matchEmailHere] at h
  split at h
  next => exact absurd h (by simp)
  next hne =>
    split at h
    next rest hdrop =>
      split at h
      next dm hdm =>
        obtain ⟨d1, after, h1, h2, h3, h4, h5⟩ := tryDomain_some hdm
        injection h with h
        subst h5
        have hd1lt : d1 < rest.length := by
          by_contra hge
          rw [List.drop_eq_nil_of_le (Nat.le_of_not_lt hge)] at h3
          exact absurd h3 (by simp)
        refine ⟨s.takeWhile isLocalChar, rest.take d1, after.takeWhile Char.isAlpha,
          h.symm, ?_, ?_, ?_, ?_, h4, ?_⟩
        · intro hnil; rw [hnil] at hne; simp at hne
        · intro c hc; exact mem_takeWhile_pred hc
        · intro hnil
          have := congrArg List.length hnil
          rw [List.length_take] at this
          simp only [List.length_nil] at this
          omega
        · exact take_pred_of_le_takeWhile_length rest d1 h2
        · intro c hc; exact mem_takeWhile_pred hc
      next => exact absurd h (by simp)
    next => exact absurd h (by simp)

theorem matchEmailHere_occ {lp dm tld rest2 : Chars}
    (hlp : lp ≠ []) (hlpc : ∀ c ∈ lp, isLocalChar c = true)
    (hdm : dm ≠ []) (hdmc : ∀ c ∈ dm, isDomainChar c = true)
    (htld : 2 ≤ tld.length) (htldc : ∀ c ∈ tld, c.isAlpha = true) :
    (matchEmailHere (lp ++ '@' :: (dm ++ '.' :: (tld ++ rest2)))).isSome = true := by
  have hat : isLocalChar '@' = false := by decide
  have htw : (lp ++ '@' :: (dm ++ '.' :: (tld ++ rest2))).takeWhile isLocalChar = lp :=
    takeWhile_append_cons lp _ hlpc hat
  simp only [matchEmailHere, htw]
  rw [if_neg (by simp [hlp]), List.drop_left]
  have hbound : dm.length + 1 ≤ ((dm ++ '.' :: (tld ++ rest2)).takeWhile isDomainChar).length := by
    have hall : ∀ c ∈ dm ++ ['.'], isDomainChar c = true := by
      intro c hc
      rcases List.mem_append.mp hc with hc | hc
      · exact hdmc c hc
      · simp at hc; subst hc; decide
    have := le_length_takeWhile_append (dm ++ ['.']) (tld ++ rest2) hall
    simpa [List.append_assoc] using this
  have hdrop : (dm ++ '.' :: (tld ++ rest2)).drop dm.length = '.' :: (tld ++ rest2) :=
    List.drop_left dm _
  have hlen2 : 2 ≤ ((tld ++ rest2).takeWhile Char.isAlpha).length :=
    Nat.le_trans htld (le_length_takeWhile_append tld rest2 htldc)
  have hsome := @tryDomain_isSome (dm ++ '.' :: (tld ++ rest2))
    (((dm ++ '.' :: (tld ++ rest2)).takeWhile isDomainChar).length)
    dm.length (tld ++ rest2)
    (List.length_pos.mpr hdm) (Nat.le_trans (Nat.le_succ _) hbound) hdrop hlen2
  cases htry : tryDomain (dm ++ '.' :: (tld ++ rest2))
      ((dm ++ '.' :: (tld ++ rest2)).takeWhile isDomainChar).length with
  | some dmr => simp [htry]
  | none => rw [htry] at hsome; simp at hsome

theorem searchEmail_eq_none_iff :
    ∀ s : Chars, (searchEmail s = none ↔ ∀ i, matchEmailHere (s.drop i) = none) := by
  intro s
  induction s with
  | nil =>
    have hnil : matchEmailHere ([] : Chars) = none := rfl
    simp [searchEmail, hnil]
  | cons c t ih =>
    cases h : matchEmailHere (c :: t) with
    | some m =>
      simp only [searchEmail, h]
      constructor
      · intro hc; exact absurd hc (by simp)
      · intro hall
        have := hall 0
        rw [List.drop_zero, h] at this
        exact absurd this (by simp)
    | none =>
      simp only [searchEmail, h, ih]
      constructor
      · intro hall i
        cases i with
        | zero => rw [List.drop_zero]; exact h
        | succ j => exact hall j
      · intro hall i
        exact hall (i + 1)

theorem searchEmail_some_iff :
    ∀ (s e : Chars), (searchEmail s = some e ↔
      ∃ i, matchEmailHere (s.drop i) = some e ∧
        ∀ j < i, matchEmailHere (s.drop j) = none) := by
  intro s e
  induction s with
  | nil =>
    have hnil : matchEmailHere ([] : Chars) = none := rfl
    simp [searchEmail, hnil]
  | cons c t ih =>
    cases h : matchEmailHere (c :: t) with
    | some m =>
      simp only [searchEmail, h]
      constructor
      · intro hc
        injection hc with hc
        subst hc
        exact ⟨0, by rw [List.drop_zero]; exact h, by intro j hj; omega⟩
      · rintro ⟨i, hi, hmin⟩
        cases i with
        | zero => rw [List.drop_zero, h] at hi; injection hi with hi; rw [hi]
        | succ j =>
          have := hmin 0 (Nat.succ_pos j)
          rw [List.drop_zero, h] at this
          exact absurd this (by simp)
    | none =>
      simp only [searchEmail, h, ih]
      constructor
      · rintro ⟨i, hi, hmin⟩
        refine ⟨i + 1, hi, ?_⟩
        intro j hj
        cases j with
        | zero => rw [List.drop_zero]; exact h
        | succ k => exact hmin k (Nat.lt_of_succ_lt_succ hj)
      · rintro ⟨i, hi, hmin⟩
        cases i with
        | zero => rw [List.drop_zero, h] at hi; exact absurd hi (by simp)
        | succ k =>
          refine ⟨k, hi, ?_⟩
          intro j hj
          exact hmin (j + 1) (Nat.succ_lt_succ hj)

/-- C7: `extract_email_from_affil` returns `none` exactly when the email
regex matches at no position of the text; when it returns a match, that
match is produced at the leftmost matching position, and it is
email-shaped (non-empty local part of local characters, `@`, non-empty
domain run, a dot, and a TLD of at least two letters); conversely any
email-shaped occurrence in the text guarantees a match is returned. -/
theorem c7_extract_email_first_positional_match :
    ∀ s : Chars,
      (extract_email_from_affil s = none ↔ ∀ i, matchEmailHere (s.drop i) = none) ∧
      (∀ e, extract_email_from_affil s = some e ↔
        ∃ i, matchEmailHere (s.drop i) = some e ∧
          ∀ j < i, matchEmailHere (s.drop j) = none) ∧
      (∀ e, extract_email_from_affil s = some e → emailShaped e) ∧
      (∀ pre lp dm tld post, s = pre ++ lp ++ '@' :: (dm ++ '.' :: (tld ++ post)) →
        lp ≠ [] → (∀ c ∈ lp, isLocalChar c = true) →
        dm ≠ [] → (∀ c ∈ dm, isDomainChar c = true) →
        2 ≤ tld.length → (∀ c ∈ tld, c.isAlpha = true) →
        ∃ e, extract_email_from_affil s = some e) := by
  intro s
  refine ⟨searchEmail_eq_none_iff s, fun e => searchEmail_some_iff s e, ?_, ?_⟩
  · intro e he
    obtain ⟨i, hi, -⟩ := (searchEmail_some_iff s e).mp he
    exact matchEmailHere_shaped hi
  · intro pre lp dm tld post hs hlp hlpc hdm hdmc htld htldc
    have hocc : (matchEmailHere (s.drop pre.length)).isSome = true := by
      rw [hs, List.append_assoc, List.drop_left]
      exact matchEmailHere_occ hlp hlpc hdm hdmc htld htldc
    cases hres : extract_email_from_affil s with
    | some e => exact ⟨e, rfl⟩
    | none =>
      have := (searchEmail_eq_none_iff s).mp hres pre.length
      rw [this] at hocc
      exact absurd hocc (by simp)

/-- Witness for C7: on a concrete affiliation text the extractor returns
the embedded email, which is email-shaped, and the occurrence-based
conjunct applies. -/
theorem c7_witness :
    extract_email_from_affil (lit "contact a@b.co now") = some (lit "a@b.co") ∧
    emailShaped (lit "a@b.co") ∧
    (∃ e, extract_email_from_affil (lit "contact a@b.co now") = some e) := by
  have h : extract_email_from_affil (lit "contact a@b.co now") = some (lit "a@b.co") := by decide
  refine ⟨h, (c7_extract_email_first_positional_match (lit "contact a@b.co now")).2.2.1 _ h,
    (c7_extract_email_first_positional_match (lit "contact a@b.co now")).2.2.2
      (lit "contact ") (lit "a") (lit "b") (lit "co") (lit " now")
      (by decide) (by decide) (by decide) (by decide) (by decide) (by decide) (by decide)⟩

/-! ### XML data model of a `PubmedArticle` element -/

structure Identifier where
  source : Chars
  text : Option Chars
  deriving DecidableEq

structure Author where
  lastName : Option Chars
  initials : Option Chars
  affiliations : List (Option Chars)
  identifiers : List Identifier
  electronicAddresses : List (Option Chars)
  deriving DecidableEq

structure PubDate where
  year : Option Chars
  month : Option Chars
  day : Option Chars
  deriving DecidableEq

structure ArticleInfo where
  titleFragments : Option (List Chars)
  pubDate : Option PubDate
  authorList : Option (List Author)
  deriving DecidableEq

structure Medline where
  pmid : Option Chars
  articleInfo : Option ArticleInfo
  deriving DecidableEq

structure ArticleIdElem where
  idType : Chars
  text : Option Chars
  deriving DecidableEq

structure Article where
  medline : Option Medline
  articleIds : List ArticleIdElem
  deriving DecidableEq

/-- Model of Python's `str.strip()`. -/
def stripStr (s : Chars) : Chars :=
  ((s.dropWhile Char.isWhitespace).reverse.dropWhile Char.isWhitespace).reverse

/-- Model of Python's `sep.join(parts)`. -/
def joinSep (sep : Chars) : List Chars → Chars
  | [] => []
  | [x] => x
  | x :: y :: rest => x ++ sep ++ joinSep sep (y :: rest)

/-- `extract_pub_date` from `core.py`: join the truthy components of the
`PubDate` element with dashes, empty if the element is absent. -/
def extract_pub_date (info : ArticleInfo) : Chars :=
  match info.pubDate with
  | some d => joinSep (lit "-") (truthyTexts [d.year, d.month, d.day])
  | none => []

/-- `extract_author_name` from `core.py`. -/
def extract_author_name (a : Author) : Chars :=
  if pyTruthy a.lastName && pyTruthy a.initials then
    a.lastName.getD [] ++ lit ", " ++ a.initials.getD []
  else
    match a.lastName with
    | some s => if s.isEmpty then lit "Unknown" else s
    | none => lit "Unknown"

/-- `get_doi_from_pubmed_xml` from `core.py`: first `ArticleId` whose
`IdType` lowercases to `doi` and whose text is truthy, stripped. -/
def doiScan : List ArticleIdElem → Option Chars
  | [] => none
  | aid :: rest =>
    if toLowerStr aid.idType == lit "doi" && pyTruthy aid.text then
      some (stripStr (aid.text.getD []))
    else doiScan rest

def get_doi_from_pubmed_xml (article : Article) : Option Chars :=
  doiScan article.articleIds

/-! ### External email resolvers

Each resolver function is a pure function of the HTTP response it would
receive; `HttpResult.err` models a raised transport error, a body of
`none` models a response whose decoding raises.  In the Python source all
such failures are caught by `except Exception: return None`. -/

inductive HttpResult (β : Type) where
  | err : HttpResult β
  | ok (status : Nat) (body : Option β) : HttpResult β

inductive CrossrefEmail where
  | str (s : Chars)
  | list (l : List Chars)
  deriving DecidableEq

structure CrossrefAuthor where
  email : Option CrossrefEmail
  affiliationNames : List Chars
  deriving DecidableEq

structure CrossrefBody where
  authors : List CrossrefAuthor
  deriving DecidableEq

/-- Leftmost search of `mailto:` followed by the email pattern, returning
the captured email group, as in `get_email_from_crossref`. -/
def searchMailto : Chars → Option Chars
  | [] => none
  | c :: t =>
    if leadsWith (lit "mailto:") (c :: t) then
      match matchEmailHere ((c :: t).drop 7) with
      | some m => some m
      | none => searchMailto t
    else searchMailto t

/-- First loop of `get_email_from_crossref`: an author's truthy `email`
field (the string itself, or the first element of a non-empty list). -/
def crossrefEmailLoop : List CrossrefAuthor → Option Chars
  | [] => none
  | a :: rest =>
    match a.email with
    | some (CrossrefEmail.str s) => if s.isEmpty then crossrefEmailLoop rest else some s
    | some (CrossrefEmail.list []) => crossrefEmailLoop rest
    | some (CrossrefEmail.list (x :: _)) => some x
    | none => crossrefEmailLoop rest

def crossrefMailtoScanAffils : List Chars → Option Chars
  | [] => none
  | n :: rest =>
    match searchMailto n with
    | some e => some e
    | none => crossrefMailtoScanAffils rest

/-- Second loop of `get_email_from_crossref`: scan affiliation names for
an embedded `mailto:` link. -/
def crossrefMailtoLoop : List CrossrefAuthor → Option Chars
  | [] => none
  | a :: rest =>
    match crossrefMailtoScanAffils a.affiliationNames with
    | some e => some e
    | none => crossrefMailtoLoop rest

/-- `get_email_from_crossref` from `core.py`, as a function of the
CrossRef HTTP response. -/
def get_email_from_crossref (resp : HttpResult CrossrefBody) : Option Chars :=
  match resp with
  | HttpResult.err => none
  | HttpResult.ok status body =>
    if status = 200 then
      match body with
      | none => none
      | some data =>
        match crossrefEmailLoop data.authors with
        | some e => some e
        | none => crossrefMailtoLoop data.authors
    else none

structure EpmcAuthor where
  email : Option Chars
  deriving DecidableEq

structure EpmcResult where
  authorList : Option (Option (List EpmcAuthor))
  affiliation : Option Chars
  deriving DecidableEq

structure EpmcBody where
  results : List EpmcResult
  deriving DecidableEq

def epmcAuthorLoop : List EpmcAuthor → Option Chars
  | [] => none
  | a :: rest =>
    match a.email with
    | some e => some e
    | none => epmcAuthorLoop rest

/-- Result loop of `get_email_from_europepmc`.  A result whose
`authorList` is present but lacks the `author` key (modelled
`some none`) raises a `KeyError` in the source, which the enclosing
`except` turns into an overall `None`. -/
def epmcResultLoop : List EpmcResult → Option Chars
  | [] => none
  | r :: rest =>
    match r.authorList with
    | some none => none
    | some (some authors) =>
      match epmcAuthorLoop authors with
      | some e => some e
      | none =>
        match r.affiliation with
        | some af =>
          if hasSub af (lit "@") then
            match searchEmail af with
            | some m => some m
            | none => epmcResultLoop rest
          else epmcResultLoop rest
        | none => epmcResultLoop rest
    | none =>
      match r.affiliation with
      | some af =>
        if hasSub af (lit "@") then
          match searchEmail af with
          | some m => some m
          | none => epmcResultLoop rest
        else epmcResultLoop rest
      | none => epmcResultLoop rest

/-- `get_email_from_europepmc` from `core.py`. -/
def get_email_from_europepmc (resp : HttpResult EpmcBody) : Option Chars :=
  match resp with
  | HttpResult.err => none
  | HttpResult.ok status body =>
    if status = 200 then
      match body with
      | none => none
      | some data => epmcResultLoop data.results
    else none

structure EmailsBody where
  emails : List Chars
  deriving DecidableEq

/-- `get_email_from_europepmc_emails_endpoint` from `core.py`. -/
def get_email_from_europepmc_emails_endpoint (resp : HttpResult EmailsBody) : Option Chars :=
  match resp with
  | HttpResult.err => none
  | HttpResult.ok status body =>
    if status = 200 then
      match body with
      | none => none
      | some data => data.emails.head?
    else none

/-- The response oracles of the external services. -/
structure World where
  crossrefResp : Chars → HttpResult CrossrefBody
  epmcSearchResp : Chars → HttpResult EpmcBody
  epmcEmailsResp : Chars → HttpResult EmailsBody
  efetchResp : List Chars → List Article

/-- One external resolver invocation, recorded for the trace. -/
inductive ResolverCall where
  | crossref (doi : Chars)
  | epmcSearch (pmid : Chars)
  | epmcEmails (pmid : Chars)
  deriving DecidableEq

/-- First cascade stage: `if doi: ... get_email_from_crossref(doi)`
(the DOI is used only when truthy). -/
def cascadeStage1 (w : World) (doi : Option Chars) :
    Option Chars × List ResolverCall :=
  if pyTruthy doi then
    (get_email_from_crossref (w.crossrefResp (doi.getD [])),
     [ResolverCall.crossref (doi.getD [])])
  else (none, [])

/-- Second cascade stage: `if not corresponding_email and pmid: ...
get_email_from_europepmc(pmid)`, overwriting the accumulated value. -/
def cascadeStage2 (w : World) (pmid : Option Chars)
    (s : Option Chars × List ResolverCall) : Option Chars × List ResolverCall :=
  if !(pyTruthy s.1) && pyTruthy pmid then
    (get_email_from_europepmc (w.epmcSearchResp (pmid.getD [])),
     s.2 ++ [ResolverCall.epmcSearch (pmid.getD [])])
  else s

/-- Third cascade stage: `if not corresponding_email and pmid: ...
get_email_from_europepmc_emails_endpoint(pmid)`. -/
def cascadeStage3 (w : World) (pmid : Option Chars)
    (s : Option Chars × List ResolverCall) : Option Chars × List ResolverCall :=
  if !(pyTruthy s.1) && pyTruthy pmid then
    (get_email_from_europepmc_emails_endpoint (w.epmcEmailsResp (pmid.getD [])),
     s.2 ++ [ResolverCall.epmcEmails (pmid.getD [])])
  else s

/-- The resolver cascade at the end of `parse_pubmed_article`, recording
the calls it makes.  Each stage runs only while the accumulated email is
falsy (`None` or empty). -/
def resolveCascade (w : World) (doi pmid : Option Chars) :
    Option Chars × List ResolverCall :=
  cascadeStage3 w pmid (cascadeStage2 w pmid (cascadeStage1 w doi))

/-- The author's directly-embedded email: last truthy `email`-typed
`Identifier`, overwritten by the last truthy `ElectronicAddress`. -/
def embeddedEmailOfAuthor (a : Author) : Option Chars :=
  let e1 := a.identifiers.foldl
    (fun acc i =>
      if toLowerStr i.source == lit "email" && pyTruthy i.text then i.text else acc)
    none
  a.electronicAddresses.foldl (fun acc t => if pyTruthy t then t else acc) e1

/-- The mutable triple of the author loop of `parse_pubmed_article`. -/
structure ParseAcc where
  nonAcad : List Chars
  companyAffils : List Chars
  possibleEmails : List Chars
  deriving DecidableEq

/-- The inner `for affil in affils` loop of `parse_pubmed_article`. -/
def processAffils (name : Chars) : List Chars → ParseAcc → ParseAcc
  | [], acc => acc
  | af :: rest, acc =>
    if is_non_academic_affiliation (some af) then
      let pe :=
        match extract_email_from_affil af with
        | some e =>
          if hasSub (toLowerStr af) (lit "corresponding") then e :: acc.possibleEmails
          else acc.possibleEmails ++ [e]
        | none => acc.possibleEmails
      processAffils name rest
        { nonAcad := acc.nonAcad ++ [name]
          companyAffils := acc.companyAffils ++ [af]
          possibleEmails := pe }
    else processAffils name rest acc

/-- One iteration of the `for author in authors` loop. -/
def processAuthor (acc : ParseAcc) (author : Author) : ParseAcc :=
  let affils := truthyTexts author.affiliations
  let emb := embeddedEmailOfAuthor author
  let acc1 :=
    if pyTruthy emb then
      { acc with possibleEmails := acc.possibleEmails ++ [emb.getD []] }
    else acc
  processAffils (extract_author_name author) affils acc1

def collectAuthors : Option (List Author) → ParseAcc
  | none => ⟨[], [], []⟩
  | some l => l.foldl processAuthor ⟨[], [], []⟩

structure ParsedRecord where
  pubmedID : Option Chars
  title : Chars
  pubDate : Chars
  nonAcadAuthors : Chars
  companyAffils : Chars
  correspondingEmail : Chars
  deriving DecidableEq

/-- `parse_pubmed_article` from `core.py`, also returning the trace of
external resolver calls it makes. -/
def parse_pubmed_article (w : World) (article : Article) :
    Option ParsedRecord × List ResolverCall :=
  match article.medline with
  | none => (none, [])
  | some medline =>
    match medline.articleInfo with
    | none => (none, [])
    | some info =>
      let title :=
        match info.titleFragments with
        | some frags => stripStr frags.flatten
        | none => []
      let acc := collectAuthors info.authorList
      if acc.nonAcad.isEmpty then (none, [])
      else
        let res :=
          match acc.possibleEmails with
          | e :: _ => (some e, ([] : List ResolverCall))
          | [] => resolveCascade w (get_doi_from_pubmed_xml article) medline.pmid
        (some { pubmedID := medline.pmid
                title := title
                pubDate := extract_pub_date info
                nonAcadAuthors := joinSep (lit "; ") acc.nonAcad
                companyAffils := joinSep (lit "; ") acc.companyAffils
                correspondingEmail := res.1.getD [] }, res.2)

/-- A failing response: transport error, non-200 status, or undecodable
body. -/
def httpFailure {β : Type} (r : HttpResult β) : Prop :=
  r = HttpResult.err ∨ (∃ s b, r = HttpResult.ok s b ∧ s ≠ 200) ∨
    (∃ s, r = HttpResult.ok s none)

/-- C5: each of the three resolver functions returns `none` on any
transport error, non-200 status, or undecodable body; as total Lean
functions of the response they never raise. -/
theorem c5_resolvers_absorb_failures :
    (∀ r : HttpResult CrossrefBody, httpFailure r → get_email_from_crossref r = none) ∧
    (∀ r : HttpResult EpmcBody, httpFailure r → get_email_from_europepmc r = none) ∧
    (∀ r : HttpResult EmailsBody,
      httpFailure r → get_email_from_europepmc_emails_endpoint r = none) := by
  refine ⟨?_, ?_, ?_⟩ <;>
  · rintro r (rfl | ⟨s, b, rfl, hs⟩ | ⟨s, rfl⟩)
    · rfl
    · simp [get_email_from_crossref, get_email_from_europepmc,
        get_email_from_europepmc_emails_endpoint, hs]
    · by_cases hs : s = 200 <;>
        simp [get_email_from_crossref, get_email_from_europepmc,
          get_email_from_europepmc_emails_endpoint, hs]

/-- Witness for C5: concrete failing responses of each shape. -/
theorem c5_witness :
    get_email_from_crossref HttpResult.err = none ∧
    get_email_from_europepmc (HttpResult.ok 404 (some ⟨[]⟩)) = none ∧
    get_email_from_europepmc_emails_endpoint (HttpResult.ok 200 none) = none :=
  ⟨c5_resolvers_absorb_failures.1 _ (Or.inl rfl),
   c5_resolvers_absorb_failures.2.1 _ (Or.inr (Or.inl ⟨404, some ⟨[]⟩, rfl, by decide⟩)),
   c5_resolvers_absorb_failures.2.2 _ (Or.inr (Or.inr ⟨200, rfl⟩))⟩

/-! ### Declarative views of the author loop -/

/-- The (author name, affiliation) hits an author contributes: one pair
per truthy affiliation the classifier accepts, in order. -/
def qualifyingPairs (a : Author) : List (Chars × Chars) :=
  ((truthyTexts a.affiliations).filter fun af =>
    is_non_academic_affiliation (some af)).map
    fun af => (extract_author_name a, af)

def pairsOfAuthors : List Author → List (Chars × Chars)
  | [] => []
  | a :: rest => qualifyingPairs a ++ pairsOfAuthors rest

/-- The emails the affiliation loop prepends (classifier accepts the
affiliation, it mentions "corresponding", and it embeds an email). -/
def affilPrepends (affils : List Chars) : List Chars :=
  affils.filterMap fun af =>
    if is_non_academic_affiliation (some af) &&
        hasSub (toLowerStr af) (lit "corresponding") then
      extract_email_from_affil af
    else none

def prependEmailsOfAuthor (a : Author) : List Chars :=
  affilPrepends (truthyTexts a.affiliations)

def prependEmails : List Author → List Chars
  | [] => []
  | a :: rest => prependEmailsOfAuthor a ++ prependEmails rest

def authorListOf (article : Article) : Option (List Author) :=
  match article.medline with
  | some m =>
    match m.articleInfo with
    | some info => info.authorList
    | none => none
  | none => none

def authorsOf (article : Article) : List Author :=
  (authorListOf article).getD []

theorem head?_append_left {α : Type} {l s : List α} (h : l ≠ []) :
    (l ++ s).head? = l.head? := by
  cases l with
  | nil => exact absurd rfl h
  | cons a as => rfl


theorem affilPrepends_cons (af : Chars) (rest : List Chars) :
    affilPrepends (af :: rest) =
      (if is_non_academic_affiliation (some af) &&
          hasSub (toLowerStr af) (lit "corresponding") then
        extract_email_from_affil af
      else none).toList ++ affilPrepends rest := by
  simp only [affilPrepends, List.filterMap_cons]
  split
  next heq => rw [heq]; rfl
  next e heq => rw [heq]; rfl

theorem processAffils_nonAcad (name : Chars) :
    ∀ (affils : List Chars) (acc : ParseAcc),
      (processAffils name affils acc).nonAcad =
        acc.nonAcad ++ (affils.filter fun af =>
          is_non_academic_affiliation (some af)).map fun _ => name := by
  intro affils
  induction affils with
  | nil => intro acc; simp [processAffils]
  | cons af rest ih =>
    intro acc
    cases hna : is_non_academic_affiliation (some af) with
    | true => simp [processAffils, hna, List.filter_cons, ih]
    | false => simp [processAffils, hna, List.filter_cons, ih]

theorem processAffils_company (name : Chars) :
    ∀ (affils : List Chars) (acc : ParseAcc),
      (processAffils name affils acc).companyAffils =
        acc.companyAffils ++ affils.filter fun af =>
          is_non_academic_affiliation (some af) := by
  intro affils
  induction affils with
  | nil => intro acc; simp [processAffils]
  | cons af rest ih =>
    intro acc
    cases hna : is_non_academic_affiliation (some af) with
    | true => simp [processAffils, hna, List.filter_cons, ih]
    | false => simp [processAffils, hna, List.filter_cons, ih]

theorem processAffils_pe_no_prepend (name : Chars) :
    ∀ (affils : List Chars) (acc : ParseAcc), affilPrepends affils = [] →
      ∃ s, (processAffils name affils acc).possibleEmails =
        acc.possibleEmails ++ s := by
  intro affils
  induction affils with
  | nil => intro acc _; exact ⟨[], by simp [processAffils]⟩
  | cons af rest ih =>
    intro acc hpre
    rw [affilPrepends_cons] at hpre
    cases hna : is_non_academic_affiliation (some af) with
    | false =>
      simp only [hna, Bool.false_and, Bool.false_eq_true, if_false,
        Option.toList_none, List.nil_append] at hpre
      simp only [processAffils, hna, Bool.false_eq_true, if_false]
      exact ih acc hpre
    | true =>
      simp only [hna, Bool.true_and] at hpre
      simp only [processAffils, hna, if_true]
      cases hex : extract_email_from_affil af with
      | none =>
        rw [hex] at hpre
        simp only [ite_self, Option.toList_none, List.nil_append] at hpre
        exact ih _ hpre
      | some e =>
        rw [hex] at hpre
        cases hcorr : hasSub (toLowerStr af) (lit "corresponding") with
        | true =>
          rw [hcorr] at hpre
          simp at hpre
        | false =>
          rw [hcorr] at hpre
          simp only [Bool.false_eq_true, if_false, Option.toList_none,
            List.nil_append] at hpre
          obtain ⟨s, hs⟩ := ih
            { nonAcad := acc.nonAcad ++ [name]
              companyAffils := acc.companyAffils ++ [af]
              possibleEmails := acc.possibleEmails ++ [e] } hpre
          refine ⟨[e] ++ s, ?_⟩
          simp only [hex, hcorr, Bool.false_eq_true, if_false] at hs ⊢
          rw [hs]
          simp

theorem processAffils_pe_last_prepend (name : Chars) :
    ∀ (affils : List Chars) (acc : ParseAcc), affilPrepends affils ≠ [] →
      (processAffils name affils acc).possibleEmails.head? =
        (affilPrepends affils).getLast? := by
  intro affils
  induction affils with
  | nil => intro acc h; exact absurd rfl h
  | cons af rest ih =>
    intro acc hpre
    cases hna : is_non_academic_affiliation (some af) with
    | false =>
      rw [affilPrepends_cons, hna] at hpre ⊢
      simp only [Bool.false_and, Bool.false_eq_true, if_false, Option.toList_none,
        List.nil_append] at hpre ⊢
      simp only [processAffils, hna, Bool.false_eq_true, if_false]
      exact ih acc hpre
    | true =>
      cases hex : extract_email_from_affil af with
      | none =>
        rw [affilPrepends_cons, hna, hex] at hpre ⊢
        simp only [Bool.true_and, ite_self, Option.toList_none,
          List.nil_append] at hpre ⊢
        simp only [processAffils, hna, hex, if_true]
        exact ih _ hpre
      | some e =>
        cases hcorr : hasSub (toLowerStr af) (lit "corresponding") with
        | false =>
          rw [affilPrepends_cons, hna, hex, hcorr] at hpre ⊢
          simp only [Bool.true_and, Bool.false_eq_true, if_false, Option.toList_none,
            List.nil_append] at hpre ⊢
          simp only [processAffils, hna, hex, hcorr, if_true, Bool.false_eq_true,
            if_false]
          exact ih _ hpre
        | true =>
          rw [affilPrepends_cons, hna, hex, hcorr] at hpre ⊢
          simp only [Bool.true_and, if_true, Option.toList_some,
            List.singleton_append] at hpre ⊢
          simp only [processAffils, hna, hex, hcorr, if_true, eq_self_iff_true]
          cases hrest : affilPrepends rest with
          | nil =>
            obtain ⟨s, hs⟩ := processAffils_pe_no_prepend name rest
              { nonAcad := acc.nonAcad ++ [name]
                companyAffils := acc.companyAffils ++ [af]
                possibleEmails := e :: acc.possibleEmails } hrest
            rw [hs]
            simp
          | cons e2 r2 =>
            rw [ih
              { nonAcad := acc.nonAcad ++ [name]
                companyAffils := acc.companyAffils ++ [af]
                possibleEmails := e :: acc.possibleEmails } (by simp [hrest]),
              List.getLast?_cons_cons, hrest]

theorem processAffils_pe_mem (name : Chars) :
    ∀ (affils : List Chars) (acc : ParseAcc) (x : Chars),
      x ∈ acc.possibleEmails →
      x ∈ (processAffils name affils acc).possibleEmails := by
  intro affils
  induction affils with
  | nil => intro acc x hx; simpa [processAffils] using hx
  | cons af rest ih =>
    intro acc x hx
    cases hna : is_non_academic_affiliation (some af) with
    | false =>
      simp only [processAffils, hna, Bool.false_eq_true, if_false]
      exact ih acc x hx
    | true =>
      simp only [processAffils, hna, if_true]
      apply ih
      cases hex : extract_email_from_affil af with
      | none => simpa [hex] using hx
      | some e =>
        cases hcorr : hasSub (toLowerStr af) (lit "corresponding") with
        | true => simp [hex, hcorr, hx]
        | false => simp [hex, hcorr, hx]

theorem processAuthor_nonAcad (acc : ParseAcc) (a : Author) :
    (processAuthor acc a).nonAcad = acc.nonAcad ++ (qualifyingPairs a).map Prod.fst := by
  simp only [processAuthor, qualifyingPairs, List.map_map]
  cases h : pyTruthy (embeddedEmailOfAuthor a) with
  | true =>
    simp only [h, if_true]
    rw [processAffils_nonAcad]
    rfl
  | false =>
    simp only [h, Bool.false_eq_true, if_false]
    rw [processAffils_nonAcad]
    rfl

theorem processAuthor_company (acc : ParseAcc) (a : Author) :
    (processAuthor acc a).companyAffils =
      acc.companyAffils ++ (qualifyingPairs a).map Prod.snd := by
  simp only [processAuthor, qualifyingPairs, List.map_map]
  cases h : pyTruthy (embeddedEmailOfAuthor a) with
  | true =>
    simp only [h, if_true]
    rw [processAffils_company]
    have : ((truthyTexts a.affiliations).filter fun af =>
        is_non_academic_affiliation (some af)).map
          (Prod.snd ∘ fun af => (extract_author_name a, af)) =
        (truthyTexts a.affiliations).filter fun af =>
          is_non_academic_affiliation (some af) := by
      simp [Function.comp]
    rw [this]
  | false =>
    simp only [h, Bool.false_eq_true, if_false]
    rw [processAffils_company]
    have : ((truthyTexts a.affiliations).filter fun af =>
        is_non_academic_affiliation (some af)).map
          (Prod.snd ∘ fun af => (extract_author_name a, af)) =
        (truthyTexts a.affiliations).filter fun af =>
          is_non_academic_affiliation (some af) := by
      simp [Function.comp]
    rw [this]

theorem processAuthor_pe_no_prepend (acc : ParseAcc) (a : Author)
    (h : prependEmailsOfAuthor a = []) :
    ∃ s, (processAuthor acc a).possibleEmails = acc.possibleEmails ++ s := by
  simp only [processAuthor]
  cases he : pyTruthy (embeddedEmailOfAuthor a) with
  | true =>
    simp only [he, if_true]
    obtain ⟨s, hs⟩ := processAffils_pe_no_prepend (extract_author_name a)
      (truthyTexts a.affiliations)
      { acc with possibleEmails :=
          acc.possibleEmails ++ [(embeddedEmailOfAuthor a).getD []] } h
    exact ⟨[(embeddedEmailOfAuthor a).getD []] ++ s, by rw [hs]; simp⟩
  | false =>
    simp only [he, Bool.false_eq_true, if_false]
    exact processAffils_pe_no_prepend _ _ acc h

theorem processAuthor_pe_last_prepend (acc : ParseAcc) (a : Author)
    (h : prependEmailsOfAuthor a ≠ []) :
    (processAuthor acc a).possibleEmails.head? =
      (prependEmailsOfAuthor a).getLast? := by
  simp only [processAuthor]
  cases he : pyTruthy (embeddedEmailOfAuthor a) with
  | true =>
    simp only [he, if_true]
    exact processAffils_pe_last_prepend _ _ _ h
  | false =>
    simp only [he, Bool.false_eq_true, if_false]
    exact processAffils_pe_last_prepend _ _ _ h

theorem processAuthor_pe_mem (acc : ParseAcc) (a : Author) (x : Chars)
    (hx : x ∈ acc.possibleEmails) : x ∈ (processAuthor acc a).possibleEmails := by
  simp only [processAuthor]
  cases he : pyTruthy (embeddedEmailOfAuthor a) with
  | true =>
    simp only [he, if_true]
    exact processAffils_pe_mem _ _ _ _ (by simp [hx])
  | false =>
    simp only [he, Bool.false_eq_true, if_false]
    exact processAffils_pe_mem _ _ _ _ hx

theorem processAuthor_pe_mem_embedded (acc : ParseAcc) (a : Author) (e : Chars)
    (he : embeddedEmailOfAuthor a = some e) (hne : e ≠ []) :
    e ∈ (processAuthor acc a).possibleEmails := by
  have htr : pyTruthy (embeddedEmailOfAuthor a) = true := by
    rw [he]; simp [pyTruthy, hne]
  simp only [processAuthor, htr, if_true]
  apply processAffils_pe_mem
  rw [he]
  simp

theorem foldl_processAuthor_nonAcad :
    ∀ (l : List Author) (acc : ParseAcc),
      (l.foldl processAuthor acc).nonAcad =
        acc.nonAcad ++ (pairsOfAuthors l).map Prod.fst := by
  intro l
  induction l with
  | nil => intro acc; simp [pairsOfAuthors]
  | cons a rest ih =>
    intro acc
    rw [List.foldl_cons, ih, processAuthor_nonAcad]
    simp [pairsOfAuthors]

theorem foldl_processAuthor_company :
    ∀ (l : List Author) (acc : ParseAcc),
      (l.foldl processAuthor acc).companyAffils =
        acc.companyAffils ++ (pairsOfAuthors l).map Prod.snd := by
  intro l
  induction l with
  | nil => intro acc; simp [pairsOfAuthors]
  | cons a rest ih =>
    intro acc
    rw [List.foldl_cons, ih, processAuthor_company]
    simp [pairsOfAuthors]

theorem foldl_processAuthor_pe_no_prepend :
    ∀ (l : List Author) (acc : ParseAcc), prependEmails l = [] →
      ∃ s, (l.foldl processAuthor acc).possibleEmails = acc.possibleEmails ++ s := by
  intro l
  induction l with
  | nil => intro acc _; exact ⟨[], by simp⟩
  | cons a rest ih =>
    intro acc hpre
    rw [prependEmails] at hpre
    rcases List.append_eq_nil.mp hpre with ⟨h1, h2⟩
    rw [List.foldl_cons]
    obtain ⟨s1, hs1⟩ := processAuthor_pe_no_prepend acc a h1
    obtain ⟨s2, hs2⟩ := ih (processAuthor acc a) h2
    exact ⟨s1 ++ s2, by rw [hs2, hs1]; simp⟩

theorem foldl_processAuthor_pe_last_prepend :
    ∀ (l : List Author) (acc : ParseAcc), prependEmails l ≠ [] →
      (l.foldl processAuthor acc).possibleEmails.head? =
        (prependEmails l).getLast? := by
  intro l
  induction l with
  | nil => intro acc h; exact absurd rfl h
  | cons a rest ih =>
    intro acc hpre
    rw [List.foldl_cons, prependEmails]
    cases hrest : prependEmails rest with
    | cons e2 r2 =>
      rw [ih (processAuthor acc a) (by simp [hrest]),
        List.getLast?_append_of_ne_nil _ (by simp [hrest]), hrest]
    | nil =>
      rw [prependEmails, hrest] at hpre
      rw [List.append_nil] at hpre ⊢
      obtain ⟨s, hs⟩ := foldl_processAuthor_pe_no_prepend rest
        (processAuthor acc a) hrest
      rw [hs]
      have hhead := processAuthor_pe_last_prepend acc a hpre
      have hne : (processAuthor acc a).possibleEmails ≠ [] := by
        intro hnil
        rw [hnil] at hhead
        exact absurd hhead.symm (by
          simpa [List.getLast?_eq_none_iff] using hpre)
      rw [head?_append_left hne, hhead]

theorem foldl_processAuthor_pe_mem :
    ∀ (l : List Author) (acc : ParseAcc) (x : Chars),
      x ∈ acc.possibleEmails → x ∈ (l.foldl processAuthor acc).possibleEmails := by
  intro l
  induction l with
  | nil => intro acc x hx; simpa using hx
  | cons a rest ih =>
    intro acc x hx
    rw [List.foldl_cons]
    exact ih _ x (processAuthor_pe_mem acc a x hx)

theorem foldl_processAuthor_pe_mem_embedded :
    ∀ (l : List Author) (acc : ParseAcc) (a : Author) (e : Chars),
      a ∈ l → embeddedEmailOfAuthor a = some e → e ≠ [] →
      e ∈ (l.foldl processAuthor acc).possibleEmails := by
  intro l
  induction l with
  | nil => intro acc a e ha; exact absurd ha (by simp)
  | cons b rest ih =>
    intro acc a e ha he hne
    rw [List.foldl_cons]
    rcases List.mem_cons.mp ha with rfl | ha
    · exact foldl_processAuthor_pe_mem rest _ e
        (processAuthor_pe_mem_embedded acc a e he hne)
    · exact ih _ a e ha he hne

theorem collectAuthors_nonAcad (ol : Option (List Author)) :
    (collectAuthors ol).nonAcad = (pairsOfAuthors (ol.getD [])).map Prod.fst := by
  cases ol with
  | none => rfl
  | some l => simpa using foldl_processAuthor_nonAcad l ⟨[], [], []⟩

theorem collectAuthors_company (ol : Option (List Author)) :
    (collectAuthors ol).companyAffils =
      (pairsOfAuthors (ol.getD [])).map Prod.snd := by
  cases ol with
  | none => rfl
  | some l => simpa using foldl_processAuthor_company l ⟨[], [], []⟩

theorem collectAuthors_pe_head (ol : Option (List Author))
    (h : prependEmails (ol.getD []) ≠ []) :
    (collectAuthors ol).possibleEmails.head? =
      (prependEmails (ol.getD [])).getLast? := by
  cases ol with
  | none => exact absurd rfl h
  | some l => exact foldl_processAuthor_pe_last_prepend l ⟨[], [], []⟩ h

theorem collectAuthors_pe_mem_embedded (l : List Author) (a : Author) (e : Chars)
    (ha : a ∈ l) (he : embeddedEmailOfAuthor a = some e) (hne : e ≠ []) :
    e ∈ (collectAuthors (some l)).possibleEmails :=
  foldl_processAuthor_pe_mem_embedded l ⟨[], [], []⟩ a e ha he hne

theorem pairsOfAuthors_eq_nil_iff :
    ∀ l : List Author,
      pairsOfAuthors l = [] ↔
        ∀ a ∈ l, ∀ af ∈ truthyTexts a.affiliations,
          is_non_academic_affiliation (some af) = false := by
  intro l
  induction l with
  | nil => simp [pairsOfAuthors]
  | cons a rest ih =>
    simp only [pairsOfAuthors, List.append_eq_nil, ih, qualifyingPairs,
      List.map_eq_nil_iff, List.filter_eq_nil_iff, List.mem_cons]
    constructor
    · rintro ⟨h1, h2⟩ b hb af haf
      rcases hb with rfl | hb
      · simpa using h1 af haf
      · exact h2 b hb af haf
    · intro h
      refine ⟨fun af haf => by simp [h a (Or.inl rfl) af haf], fun b hb af haf =>
        h b (Or.inr hb) af haf⟩

theorem prependEmails_eq_nil_of_pairs :
    ∀ l : List Author, pairsOfAuthors l = [] → prependEmails l = [] := by
  intro l
  induction l with
  | nil => intro h; rfl
  | cons a rest ih =>
    intro hpairs
    rw [pairsOfAuthors, List.append_eq_nil] at hpairs
    rw [prependEmails, ih hpairs.2, List.append_nil]
    have hfilter : ((truthyTexts a.affiliations).filter fun af =>
        is_non_academic_affiliation (some af)) = [] := by
      have := hpairs.1
      rw [qualifyingPairs, List.map_eq_nil_iff] at this
      exact this
    rw [List.filter_eq_nil_iff] at hfilter
    rw [prependEmailsOfAuthor, affilPrepends, List.filterMap_eq_nil_iff]
    intro af haf
    have hfalse : is_non_academic_affiliation (some af) = false := by
      simpa using hfilter af haf
    simp [hfalse]

theorem pairsOfAuthors_ne_nil_of_prepends (l : List Author)
    (hpre : prependEmails l ≠ []) : pairsOfAuthors l ≠ [] :=
  fun hpairs => hpre (prependEmails_eq_nil_of_pairs l hpairs)

/-- A world in which every external request fails at transport level. -/
def noNetwork : World :=
  { crossrefResp := fun _ => HttpResult.err
    epmcSearchResp := fun _ => HttpResult.err
    epmcEmailsResp := fun _ => HttpResult.err
    efetchResp := fun _ => [] }

/-- C1: `parse_pubmed_article` yields no record when no author has any
affiliation the classifier accepts, regardless of the article's other
fields, and a record is produced only if some author has an affiliation
classified non-academic. -/
theorem c1_record_only_with_non_academic_author :
    (∀ (w : World) (article : Article),
      (∀ au ∈ authorsOf article, ∀ af ∈ truthyTexts au.affiliations,
        is_non_academic_affiliation (some af) = false) →
      (parse_pubmed_article w article).1 = none) ∧
    (∀ (w : World) (article : Article) (r : ParsedRecord),
      (parse_pubmed_article w article).1 = some r →
      ∃ au ∈ authorsOf article, ∃ af ∈ truthyTexts au.affiliations,
        is_non_academic_affiliation (some af) = true) := by
  constructor
  · intro w article hno
    cases hm : article.medline with
    | none => simp [parse_pubmed_article, hm]
    | some m =>
      cases hi : m.articleInfo with
      | none => simp [parse_pubmed_article, hm, hi]
      | some info =>
        have hauth : authorsOf article = info.authorList.getD [] := by
          simp [authorsOf, authorListOf, hm, hi]
        have hpairs : pairsOfAuthors (info.authorList.getD []) = [] := by
          rw [pairsOfAuthors_eq_nil_iff]
          intro a ha af haf
          exact hno a (by rw [hauth]; exact ha) af haf
        have hna : (collectAuthors info.authorList).nonAcad = [] := by
          rw [collectAuthors_nonAcad, hpairs]
          rfl
        simp [parse_pubmed_article, hm, hi, hna]
  · intro w article r hr
    cases hm : article.medline with
    | none => simp [parse_pubmed_article, hm] at hr
    | some m =>
      cases hi : m.articleInfo with
      | none => simp [parse_pubmed_article, hm, hi] at hr
      | some info =>
        simp only [parse_pubmed_article, hm, hi] at hr
        cases hempty : (collectAuthors info.authorList).nonAcad.isEmpty with
        | true => simp [hempty] at hr
        | false =>
          have hauth : authorsOf article = info.authorList.getD [] := by
            simp [authorsOf, authorListOf, hm, hi]
          have hne : (collectAuthors info.authorList).nonAcad ≠ [] := by
            intro h
            rw [h] at hempty
            simp at hempty
          have hpairs : pairsOfAuthors (info.authorList.getD []) ≠ [] := by
            intro h
            apply hne
            rw [collectAuthors_nonAcad, h]
            rfl
          rw [hauth]
          by_contra hc
          push_neg at hc
          apply hpairs
          rw [pairsOfAuthors_eq_nil_iff]
          intro a ha af haf
          simpa using hc a ha af haf

def c1AcadArticle : Article :=
  { medline := some
      { pmid := some (lit "1")
        articleInfo := some
          { titleFragments := some [lit "T"]
            pubDate := none
            authorList := some
              [{ lastName := some (lit "Doe")
                 initials := some (lit "J")
                 affiliations := [some (lit "Acme University")]
                 identifiers := []
                 electronicAddresses := [] }] } }
    articleIds := [] }

def c1PharmaArticle : Article :=
  { medline := some
      { pmid := some (lit "1")
        articleInfo := some
          { titleFragments := some [lit "T"]
            pubDate := none
            authorList := some
              [{ lastName := some (lit "Doe")
                 initials := some (lit "J")
                 affiliations := [some (lit "Acme Pharma")]
                 identifiers := []
                 electronicAddresses := [] }] } }
    articleIds := [] }

/-- Witness for C1: an article whose only author is academic produces no
record; an article with a commercial author produces one. -/
theorem c1_witness :
    (∀ au ∈ authorsOf c1AcadArticle, ∀ af ∈ truthyTexts au.affiliations,
      is_non_academic_affiliation (some af) = false) ∧
    (parse_pubmed_article noNetwork c1AcadArticle).1 = none ∧
    (∃ au ∈ authorsOf c1PharmaArticle, ∃ af ∈ truthyTexts au.affiliations,
      is_non_academic_affiliation (some af) = true) := by
  have h1 : ∀ au ∈ authorsOf c1AcadArticle, ∀ af ∈ truthyTexts au.affiliations,
      is_non_academic_affiliation (some af) = false := by decide
  have h2 : (parse_pubmed_article noNetwork c1PharmaArticle).1 =
      some { pubmedID := some (lit "1"), title := lit "T", pubDate := []
             nonAcadAuthors := lit "Doe, J", companyAffils := lit "Acme Pharma"
             correspondingEmail := [] } := by rfl
  exact ⟨h1, c1_record_only_with_non_academic_author.1 noNetwork c1AcadArticle h1,
    c1_record_only_with_non_academic_author.2 noNetwork c1PharmaArticle _ h2⟩

/-- C10: in every emitted record the "; "-joined non-academic author list
and company affiliation list are the joins of the first and second
projections of one pairs list, in which each author contributes exactly
one (name, affiliation) pair per truthy affiliation the classifier
accepts, in author order; in particular the two lists have equal length
and are index-parallel. -/
theorem c10_parallel_author_affiliation_lists :
    ∀ (w : World) (article : Article) (r : ParsedRecord),
      (parse_pubmed_article w article).1 = some r →
      r.nonAcadAuthors =
        joinSep (lit "; ") ((pairsOfAuthors (authorsOf article)).map Prod.fst) ∧
      r.companyAffils =
        joinSep (lit "; ") ((pairsOfAuthors (authorsOf article)).map Prod.snd) ∧
      ((pairsOfAuthors (authorsOf article)).map Prod.fst).length =
        ((pairsOfAuthors (authorsOf article)).map Prod.snd).length := by
  intro w article r hr
  cases hm : article.medline with
  | none => simp [parse_pubmed_article, hm] at hr
  | some m =>
    cases hi : m.articleInfo with
    | none => simp [parse_pubmed_article, hm, hi] at hr
    | some info =>
      simp only [parse_pubmed_article, hm, hi] at hr
      cases hempty : (collectAuthors info.authorList).nonAcad.isEmpty with
      | true => simp [hempty] at hr
      | false =>
        have hauth : authorsOf article = info.authorList.getD [] := by
          simp [authorsOf, authorListOf, hm, hi]
        simp only [hempty, Bool.false_eq_true, if_false] at hr
        injection hr with hr
        subst hr
        refine ⟨?_, ?_, by simp⟩
        · show joinSep (lit "; ") (collectAuthors info.authorList).nonAcad = _
          rw [collectAuthors_nonAcad, hauth]
        · show joinSep (lit "; ") (collectAuthors info.authorList).companyAffils = _
          rw [collectAuthors_company, hauth]

def c10Article : Article :=
  { medline := some
      { pmid := some (lit "9")
        articleInfo := some
          { titleFragments := some [lit "T"]
            pubDate := none
            authorList := some
              [{ lastName := some (lit "Doe")
                 initials := some (lit "J")
                 affiliations := [some (lit "Acme Pharma"), some (lit "Beta Biotech")]
                 identifiers := []
                 electronicAddresses := [] },
               { lastName := some (lit "Roe")
                 initials := some (lit "K")
                 affiliations := [some (lit "Acme University")]
                 identifiers := []
                 electronicAddresses := [] }] } }
    articleIds := [] }

def c10Rec : ParsedRecord :=
  { pubmedID := some (lit "9")
    title := lit "T"
    pubDate := []
    nonAcadAuthors := lit "Doe, J; Doe, J"
    companyAffils := lit "Acme Pharma; Beta Biotech"
    correspondingEmail := [] }

/-- Witness for C10: an author with two accepted affiliations contributes
two pairs, giving parallel joined lists. -/
theorem c10_witness :
    (parse_pubmed_article noNetwork c10Article).1 = some c10Rec ∧
    c10Rec.nonAcadAuthors =
      joinSep (lit "; ") ((pairsOfAuthors (authorsOf c10Article)).map Prod.fst) ∧
    c10Rec.companyAffils =
      joinSep (lit "; ") ((pairsOfAuthors (authorsOf c10Article)).map Prod.snd) := by
  have h : (parse_pubmed_article noNetwork c10Article).1 = some c10Rec := by rfl
  exact ⟨h, (c10_parallel_author_affiliation_lists noNetwork c10Article c10Rec h).1,
    (c10_parallel_author_affiliation_lists noNetwork c10Article c10Rec h).2.1⟩

theorem foldl_overwrite_indep :
    ∀ (l : List (Option Chars)) (init : Option Chars) (v : Chars),
      l.foldl (fun acc t => if pyTruthy t then t else acc) none = some v →
      l.foldl (fun acc t => if pyTruthy t then t else acc) init = some v := by
  intro l
  induction l with
  | nil => intro init v h; exact absurd h (by simp)
  | cons t rest ih =>
    intro init v h
    cases ht : pyTruthy t with
    | true =>
      simp only [List.foldl_cons, ht, if_true] at h ⊢
      exact h
    | false =>
      simp only [List.foldl_cons, ht, Bool.false_eq_true, if_false] at h ⊢
      exact ih init v h

/-- C8: for an author carrying both an email-typed identifier and truthy
electronic-address fields, the electronic-address value determines the
collected embedded email (the identifier-derived value is overwritten),
and every author's truthy embedded email enters the candidate list
regardless of how the author's affiliations are classified. -/
theorem c8_electronic_address_overwrites_and_all_collected :
    (∀ (a : Author) (v : Chars),
      (∃ i ∈ a.identifiers,
        toLowerStr i.source = lit "email" ∧ pyTruthy i.text = true) →
      a.electronicAddresses.foldl
        (fun acc t => if pyTruthy t then t else acc) none = some v →
      embeddedEmailOfAuthor a = some v) ∧
    (∀ (l : List Author) (a : Author) (e : Chars),
      a ∈ l → embeddedEmailOfAuthor a = some e → e ≠ [] →
      e ∈ (collectAuthors (some l)).possibleEmails) := by
  constructor
  · intro a v hid hfold
    simp only [embeddedEmailOfAuthor]
    exact foldl_overwrite_indep _ _ v hfold
  · intro l a e ha he hne
    exact collectAuthors_pe_mem_embedded l a e ha he hne

def c8Author : Author :=
  { lastName := some (lit "Doe")
    initials := some (lit "J")
    affiliations := []
    identifiers := [{ source := lit "Email", text := some (lit "id@x.co") }]
    electronicAddresses := [some (lit "ea@y.co")] }

/-- Witness for C8: with both an email identifier and an electronic
address present, the electronic address is the embedded email, and it is
collected although the author has no classified affiliation at all. -/
theorem c8_witness :
    embeddedEmailOfAuthor c8Author = some (lit "ea@y.co") ∧
    lit "ea@y.co" ∈ (collectAuthors (some [c8Author])).possibleEmails := by
  refine ⟨c8_electronic_address_overwrites_and_all_collected.1 c8Author
      (lit "ea@y.co") (by decide) (by decide),
    c8_electronic_address_overwrites_and_all_collected.2 [c8Author] c8Author
      (lit "ea@y.co") (by decide) ?_ (by decide)⟩
  exact c8_electronic_address_overwrites_and_all_collected.1 c8Author
    (lit "ea@y.co") (by decide) (by decide)

def c2Author1 : Author :=
  { lastName := some (lit "Doe")
    initials := some (lit "J")
    affiliations := [some (lit "acme pharma corresponding a@x.co")]
    identifiers := []
    electronicAddresses := [] }

def c2Author2 : Author :=
  { lastName := some (lit "Roe")
    initials := some (lit "K")
    affiliations := [some (lit "university x corresponding u@z.co")]
    identifiers := []
    electronicAddresses := [] }

def c2Author3 : Author :=
  { lastName := some (lit "Poe")
    initials := some (lit "L")
    affiliations := [some (lit "beta biotech corresponding c@w.co")]
    identifiers := []
    electronicAddresses := [] }

def c2Article : Article :=
  { medline := some
      { pmid := some (lit "2")
        articleInfo := some
          { titleFragments := none
            pubDate := none
            authorList := some [c2Author1, c2Author2, c2Author3] } }
    articleIds := [] }

def c2Rec : ParsedRecord :=
  { pubmedID := some (lit "2")
    title := []
    pubDate := []
    nonAcadAuthors := lit "Doe, J; Poe, L"
    companyAffils :=
      lit "acme pharma corresponding a@x.co; beta biotech corresponding c@w.co"
    correspondingEmail := lit "c@w.co" }

/-- Counterexample to C2 as stated: in `c2Article` both the first author
(non-academic, "corresponding", embeds `a@x.co`) and the second author
(academic, "corresponding", embeds `u@z.co`) satisfy the claim's premise,
yet the record's corresponding email is `c@w.co`: the academic-vetoed
affiliation's email is never collected, and of several non-academic
"corresponding" affiliations only the last processed one wins. -/
theorem c2_counterexample :
    (parse_pubmed_article noNetwork c2Article).1 = some c2Rec ∧
    c2Author1 ∈ authorsOf c2Article ∧
    hasSub (toLowerStr (lit "acme pharma corresponding a@x.co"))
      (lit "corresponding") = true ∧
    extract_email_from_affil (lit "acme pharma corresponding a@x.co") =
      some (lit "a@x.co") ∧
    c2Rec.correspondingEmail ≠ lit "a@x.co" ∧
    c2Author2 ∈ authorsOf c2Article ∧
    hasSub (toLowerStr (lit "university x corresponding u@z.co"))
      (lit "corresponding") = true ∧
    extract_email_from_affil (lit "university x corresponding u@z.co") =
      some (lit "u@z.co") ∧
    c2Rec.correspondingEmail ≠ lit "u@z.co" ∧
    is_non_academic_affiliation
      (some (lit "university x corresponding u@z.co")) = false := by
  decide

/-- C2 (amended): an email embedded in an author's affiliation that
contains "corresponding" (case-insensitively) is chosen as the record's
Corresponding Author Email over any other candidate, provided the
affiliation is also classified non-academic and it is the last such
prepending affiliation in processing order (in particular whenever it is
the only one): the prepended email heads the candidate list and the first
candidate is selected. -/
theorem c2_amended_last_corresponding_prepend_wins :
    ∀ (w : World) (article : Article),
      prependEmails (authorsOf article) ≠ [] →
      ∃ r, (parse_pubmed_article w article).1 = some r ∧
        some r.correspondingEmail =
          (prependEmails (authorsOf article)).getLast? := by
  intro w article hpre
  cases hm : article.medline with
  | none =>
    rw [show authorsOf article = [] from by
      simp [authorsOf, authorListOf, hm]] at hpre
    exact absurd rfl hpre
  | some m =>
    cases hi : m.articleInfo with
    | none =>
      rw [show authorsOf article = [] from by
        simp [authorsOf, authorListOf, hm, hi]] at hpre
      exact absurd rfl hpre
    | some info =>
      have hauth : authorsOf article = info.authorList.getD [] := by
        simp [authorsOf, authorListOf, hm, hi]
      rw [hauth] at hpre ⊢
      have hpairs := pairsOfAuthors_ne_nil_of_prepends _ hpre
      have hna : (collectAuthors info.authorList).nonAcad ≠ [] := by
        rw [collectAuthors_nonAcad]
        intro h
        rw [List.map_eq_nil_iff] at h
        exact hpairs h
      have hhead : (collectAuthors info.authorList).possibleEmails.head? =
          (prependEmails (info.authorList.getD [])).getLast? :=
        collectAuthors_pe_head _ hpre
      obtain ⟨e, he⟩ : ∃ e,
          (prependEmails (info.authorList.getD [])).getLast? = some e := by
        cases hg : (prependEmails (info.authorList.getD [])).getLast? with
        | some e => exact ⟨e, rfl⟩
        | none =>
          rw [List.getLast?_eq_none_iff] at hg
          exact absurd hg hpre
      rw [he] at hhead
      obtain ⟨pe', hpe⟩ : ∃ pe',
          (collectAuthors info.authorList).possibleEmails = e :: pe' := by
        cases hp : (collectAuthors info.authorList).possibleEmails with
        | nil => rw [hp] at hhead; simp at hhead
        | cons x xs =>
          rw [hp] at hhead
          simp only [List.head?_cons, Option.some.injEq] at hhead
          exact ⟨xs, by rw [hhead]⟩
      have hempty : (collectAuthors info.authorList).nonAcad.isEmpty = false := by
        cases hval : (collectAuthors info.authorList).nonAcad with
        | nil => exact absurd hval hna
        | cons _ _ => rfl
      simp only [parse_pubmed_article, hm, hi, hempty, Bool.false_eq_true,
        if_false, hpe]
      exact ⟨_, rfl, by rw [he]; simp⟩

def c2WArticle : Article :=
  { medline := some
      { pmid := some (lit "3")
        articleInfo := some
          { titleFragments := none
            pubDate := none
            authorList := some [c2Author1] } }
    articleIds := [] }

/-- Witness for the amended C2: with a unique non-academic
"corresponding" affiliation embedding an email, that email is chosen. -/
theorem c2_witness :
    prependEmails (authorsOf c2WArticle) ≠ [] ∧
    ∃ r, (parse_pubmed_article noNetwork c2WArticle).1 = some r ∧
      some r.correspondingEmail =
        (prependEmails (authorsOf c2WArticle)).getLast? := by
  have h : prependEmails (authorsOf c2WArticle) ≠ [] := by decide
  exact ⟨h, c2_amended_last_corresponding_prepend_wins noNetwork c2WArticle h⟩

theorem isEmpty_false_of_ne_nil {l : Chars} (h : l ≠ []) : l.isEmpty = false := by
  cases l with
  | nil => exact absurd rfl h
  | cons a as => rfl

theorem pyTruthy_some_iff {o : Option Chars} :
    pyTruthy o = true ↔ ∃ p, o = some p ∧ p ≠ [] := by
  cases o with
  | none => simp [pyTruthy]
  | some s =>
    simp only [pyTruthy, Bool.not_eq_eq_eq_not, Bool.not_true, List.isEmpty_iff]
    constructor
    · intro h
      refine ⟨s, rfl, ?_⟩
      intro hnil
      rw [hnil] at h
      simp at h
    · rintro ⟨p, hp, hne⟩
      cases hp
      simpa [List.isEmpty_iff] using hne

theorem cascadeStage1_mem {w : World} {doi : Option Chars} {x : ResolverCall}
    (hx : x ∈ (cascadeStage1 w doi).2) :
    ∃ d, doi = some d ∧ d ≠ [] ∧ x = ResolverCall.crossref d := by
  cases hc : pyTruthy doi with
  | false => rw [cascadeStage1, hc] at hx; simp at hx
  | true =>
    rw [cascadeStage1, hc, if_pos rfl] at hx
    obtain ⟨d, rfl, hne⟩ := pyTruthy_some_iff.mp hc
    simp only [List.mem_singleton] at hx
    exact ⟨d, rfl, hne, by simpa using hx⟩

theorem cascadeStage2_mem {w : World} {pmid : Option Chars}
    {s : Option Chars × List ResolverCall} {x : ResolverCall}
    (hx : x ∈ (cascadeStage2 w pmid s).2) :
    x ∈ s.2 ∨ ∃ p, pmid = some p ∧ p ≠ [] ∧ x = ResolverCall.epmcSearch p := by
  cases hc : !(pyTruthy s.1) && pyTruthy pmid with
  | false => rw [cascadeStage2, hc] at hx; exact Or.inl (by simpa using hx)
  | true =>
    rw [cascadeStage2, hc, if_pos rfl] at hx
    have hp : pyTruthy pmid = true := by
      cases h2 : pyTruthy pmid
      · rw [h2, Bool.and_false] at hc; exact absurd hc (by simp)
      · rfl
    obtain ⟨p, rfl, hne⟩ := pyTruthy_some_iff.mp hp
    simp only [List.mem_append, List.mem_singleton] at hx
    rcases hx with hx | hx
    · exact Or.inl hx
    · exact Or.inr ⟨p, rfl, hne, by simpa using hx⟩

theorem cascadeStage3_mem {w : World} {pmid : Option Chars}
    {s : Option Chars × List ResolverCall} {x : ResolverCall}
    (hx : x ∈ (cascadeStage3 w pmid s).2) :
    x ∈ s.2 ∨ ∃ p, pmid = some p ∧ p ≠ [] ∧ x = ResolverCall.epmcEmails p := by
  cases hc : !(pyTruthy s.1) && pyTruthy pmid with
  | false => rw [cascadeStage3, hc] at hx; exact Or.inl (by simpa using hx)
  | true =>
    rw [cascadeStage3, hc, if_pos rfl] at hx
    have hp : pyTruthy pmid = true := by
      cases h2 : pyTruthy pmid
      · rw [h2, Bool.and_false] at hc; exact absurd hc (by simp)
      · rfl
    obtain ⟨p, rfl, hne⟩ := pyTruthy_some_iff.mp hp
    simp only [List.mem_append, List.mem_singleton] at hx
    rcases hx with hx | hx
    · exact Or.inl hx
    · exact Or.inr ⟨p, rfl, hne, by simpa using hx⟩

theorem cascadeStage1_sublist (w : World) (doi : Option Chars) :
    (cascadeStage1 w doi).2.Sublist [ResolverCall.crossref (doi.getD [])] := by
  cases hc : pyTruthy doi with
  | false => rw [cascadeStage1, hc]; simp
  | true =>
    rw [cascadeStage1, hc, if_pos rfl]

theorem cascadeStage2_sublist {w : World} {pmid : Option Chars}
    {s : Option Chars × List ResolverCall} {L : List ResolverCall}
    (h : s.2.Sublist L) :
    (cascadeStage2 w pmid s).2.Sublist
      (L ++ [ResolverCall.epmcSearch (pmid.getD [])]) := by
  cases hc : !(pyTruthy s.1) && pyTruthy pmid with
  | false =>
    rw [cascadeStage2, hc]
    exact h.trans (List.sublist_append_left L _)
  | true =>
    rw [cascadeStage2, hc, if_pos rfl]
    exact h.append (List.Sublist.refl _)

theorem cascadeStage3_sublist {w : World} {pmid : Option Chars}
    {s : Option Chars × List ResolverCall} {L : List ResolverCall}
    (h : s.2.Sublist L) :
    (cascadeStage3 w pmid s).2.Sublist
      (L ++ [ResolverCall.epmcEmails (pmid.getD [])]) := by
  cases hc : !(pyTruthy s.1) && pyTruthy pmid with
  | false =>
    rw [cascadeStage3, hc]
    exact h.trans (List.sublist_append_left L _)
  | true =>
    rw [cascadeStage3, hc, if_pos rfl]
    exact h.append (List.Sublist.refl _)

theorem resolveCascade_props (w : World) (doi pmid : Option Chars) :
    ((resolveCascade w doi pmid).2).Sublist
        [ResolverCall.crossref (doi.getD []),
         ResolverCall.epmcSearch (pmid.getD []),
         ResolverCall.epmcEmails (pmid.getD [])] ∧
    (∀ d, ResolverCall.crossref d ∈ (resolveCascade w doi pmid).2 →
      doi = some d ∧ d ≠ []) ∧
    (∀ d, doi = some d → d ≠ [] →
      pyTruthy (get_email_from_crossref (w.crossrefResp d)) = true →
      (resolveCascade w doi pmid).2 = [ResolverCall.crossref d] ∧
      (resolveCascade w doi pmid).1 =
        get_email_from_crossref (w.crossrefResp d)) ∧
    (∀ p, pmid = some p → p ≠ [] →
      pyTruthy (get_email_from_europepmc (w.epmcSearchResp p)) = true →
      ResolverCall.epmcEmails p ∉ (resolveCascade w doi pmid).2) ∧
    (∀ p, pmid = some p → p ≠ [] →
      (∀ d, doi = some d →
        pyTruthy (get_email_from_crossref (w.crossrefResp d)) = false) →
      pyTruthy (get_email_from_europepmc (w.epmcSearchResp p)) = false →
      (resolveCascade w doi pmid).2.getLast? =
        some (ResolverCall.epmcEmails p)) := by
  refine ⟨?_, ?_, ?_, ?_, ?_⟩
  · have h1 := cascadeStage1_sublist w doi
    have h2 := @cascadeStage2_sublist w pmid _ _ h1
    have h3 := @cascadeStage3_sublist w pmid _ _ h2
    simpa [resolveCascade] using h3
  · intro d hd
    rw [resolveCascade] at hd
    rcases cascadeStage3_mem hd with hd | ⟨p, hp, hpne, heq⟩
    · rcases cascadeStage2_mem hd with hd | ⟨p, hp, hpne, heq⟩
      · obtain ⟨d', hdoi, hdne, heq⟩ := cascadeStage1_mem hd
        injection heq with heq
        subst heq
        exact ⟨hdoi, hdne⟩
      · exact absurd heq (by simp)
    · exact absurd heq (by simp)
  · intro d hd hdne htr
    subst hd
    have hd1 : pyTruthy (some d) = true := pyTruthy_some_iff.mpr ⟨d, rfl, hdne⟩
    have hs1 : cascadeStage1 w (some d) =
        (get_email_from_crossref (w.crossrefResp d), [ResolverCall.crossref d]) := by
      rw [cascadeStage1, hd1, if_pos rfl]
      rfl
    have hs2 : cascadeStage2 w pmid (cascadeStage1 w (some d)) =
        cascadeStage1 w (some d) := by
      rw [cascadeStage2, hs1]
      simp [htr]
    rw [resolveCascade, hs2, cascadeStage3, hs1]
    simp [htr]
  · intro p hp hpne htr
    subst hp
    have hpmid : pyTruthy (some p) = true := pyTruthy_some_iff.mpr ⟨p, rfl, hpne⟩
    intro hmem
    rw [resolveCascade] at hmem
    cases hc0 : pyTruthy (cascadeStage1 w doi).1 with
    | true =>
      have hs2 : cascadeStage2 w (some p) (cascadeStage1 w doi) =
          cascadeStage1 w doi := by
        rw [cascadeStage2, hc0]
        simp
      have hs3 : cascadeStage3 w (some p) (cascadeStage1 w doi) =
          cascadeStage1 w doi := by
        rw [cascadeStage3, hc0]
        simp
      rw [hs2, hs3] at hmem
      obtain ⟨d', -, -, heq⟩ := cascadeStage1_mem hmem
      exact absurd heq (by simp)
    | false =>
      have hs2 : cascadeStage2 w (some p) (cascadeStage1 w doi) =
          (get_email_from_europepmc (w.epmcSearchResp p),
           (cascadeStage1 w doi).2 ++ [ResolverCall.epmcSearch p]) := by
        rw [cascadeStage2, hc0, hpmid]
        simp
      rw [hs2, cascadeStage3] at hmem
      simp only [htr, Bool.not_true, Bool.false_and, Bool.false_eq_true,
        if_false] at hmem
      rcases List.mem_append.mp hmem with hmem | hmem
      · obtain ⟨d', -, -, heq⟩ := cascadeStage1_mem hmem
        exact absurd heq (by simp)
      · simp at hmem
  · intro p hp hpne hall h2
    subst hp
    have hpmid : pyTruthy (some p) = true := pyTruthy_some_iff.mpr ⟨p, rfl, hpne⟩
    have hc0 : pyTruthy (cascadeStage1 w doi).1 = false := by
      cases hdoi : pyTruthy doi with
      | false =>
        rw [cascadeStage1, hdoi]
        simp [pyTruthy]
      | true =>
        obtain ⟨d, rfl, hdne⟩ := pyTruthy_some_iff.mp hdoi
        rw [cascadeStage1, hdoi, if_pos rfl]
        simpa using hall d rfl
    have hs2 : cascadeStage2 w (some p) (cascadeStage1 w doi) =
        (get_email_from_europepmc (w.epmcSearchResp p),
         (cascadeStage1 w doi).2 ++ [ResolverCall.epmcSearch p]) := by
      rw [cascadeStage2, hc0, hpmid]
      simp
    rw [resolveCascade, hs2, cascadeStage3]
    simp only [h2, Bool.not_false, hpmid, Bool.and_self, Option.getD_some, if_true]
    rw [List.getLast?_append_of_ne_nil _ (by simp)]
    rfl

/-- C4: for an article that yields a record and whose inline candidate
list is empty, the parse trace is exactly the resolver cascade's trace,
which invokes the resolvers in the order CrossRef-by-DOI (only when a
truthy DOI is present), Europe PMC search-by-PMID, Europe PMC emails
endpoint, and a truthy result of an earlier resolver prevents all later
invocations. -/
theorem c4_resolver_cascade_order_and_short_circuit :
    ∀ (w : World) (article : Article) (m : Medline) (info : ArticleInfo),
      article.medline = some m → m.articleInfo = some info →
      (collectAuthors info.authorList).possibleEmails = [] →
      (parse_pubmed_article w article).1 ≠ none →
      (parse_pubmed_article w article).2 =
        (resolveCascade w (get_doi_from_pubmed_xml article) m.pmid).2 ∧
      ((parse_pubmed_article w article).2.Sublist
        [ResolverCall.crossref ((get_doi_from_pubmed_xml article).getD []),
         ResolverCall.epmcSearch (m.pmid.getD []),
         ResolverCall.epmcEmails (m.pmid.getD [])]) ∧
      (∀ d, ResolverCall.crossref d ∈ (parse_pubmed_article w article).2 →
        get_doi_from_pubmed_xml article = some d ∧ d ≠ []) ∧
      (∀ d, get_doi_from_pubmed_xml article = some d → d ≠ [] →
        pyTruthy (get_email_from_crossref (w.crossrefResp d)) = true →
        (parse_pubmed_article w article).2 = [ResolverCall.crossref d]) ∧
      (∀ p, m.pmid = some p → p ≠ [] →
        pyTruthy (get_email_from_europepmc (w.epmcSearchResp p)) = true →
        ResolverCall.epmcEmails p ∉ (parse_pubmed_article w article).2) ∧
      (∀ p, m.pmid = some p → p ≠ [] →
        (∀ d, get_doi_from_pubmed_xml article = some d →
          pyTruthy (get_email_from_crossref (w.crossrefResp d)) = false) →
        pyTruthy (get_email_from_europepmc (w.epmcSearchResp p)) = false →
        (parse_pubmed_article w article).2.getLast? =
          some (ResolverCall.epmcEmails p)) := by
  intro w article m info hm hi hpe hrec
  have htrace : (parse_pubmed_article w article).2 =
      (resolveCascade w (get_doi_from_pubmed_xml article) m.pmid).2 := by
    cases hempty : (collectAuthors info.authorList).nonAcad.isEmpty with
    | true =>
      exfalso
      apply hrec
      simp [parse_pubmed_article, hm, hi, hempty]
    | false =>
      simp [parse_pubmed_article, hm, hi, hempty, hpe]
  refine ⟨htrace, ?_, ?_, ?_, ?_, ?_⟩ <;> rw [htrace]
  · exact (resolveCascade_props w _ _).1
  · exact (resolveCascade_props w _ _).2.1
  · intro d hd hdne htr
    exact ((resolveCascade_props w _ _).2.2.1 d hd hdne htr).1
  · exact (resolveCascade_props w _ _).2.2.2.1
  · exact (resolveCascade_props w _ _).2.2.2.2

def c4Author : Author :=
  { lastName := some (lit "Doe")
    initials := some (lit "J")
    affiliations := [some (lit "Acme Pharma")]
    identifiers := []
    electronicAddresses := [] }

def c4Info : ArticleInfo :=
  { titleFragments := none
    pubDate := none
    authorList := some [c4Author] }

def c4Medline : Medline :=
  { pmid := some (lit "7")
    articleInfo := some c4Info }

def c4Article : Article :=
  { medline := some c4Medline
    articleIds := [] }

/-- Witness for C4: a record-yielding article with no inline candidate
email delegates its trace to the cascade, in resolver order. -/
theorem c4_witness :
    (parse_pubmed_article noNetwork c4Article).2 =
      (resolveCascade noNetwork (get_doi_from_pubmed_xml c4Article)
        c4Medline.pmid).2 ∧
    (parse_pubmed_article noNetwork c4Article).2.Sublist
      [ResolverCall.crossref ((get_doi_from_pubmed_xml c4Article).getD []),
       ResolverCall.epmcSearch (c4Medline.pmid.getD []),
       ResolverCall.epmcEmails (c4Medline.pmid.getD [])] := by
  have h := c4_resolver_cascade_order_and_short_circuit noNetwork c4Article
    c4Medline c4Info rfl rfl (by decide) (by decide)
  exact ⟨h.1, h.2.1⟩

/-! ### Search/fetch orchestrator -/

/-- One decoded ESearch page: the `esearchresult.count` field and the
`esearchresult.idlist` field. -/
structure EsearchPage where
  count : Nat
  idlist : List Chars

/-- The pagination loop of `fetch_pubmed_ids`: request the page at
`retstart`, append its ids, advance by `retmax`, and stop once the next
offset reaches `total` (the count read from the first page).  Also
returns the offsets requested, in order.  The Python loop diverges when
`retmax = 0`, so the model is defined only for positive `retmax`. -/
def esearchGo (pages : Nat → EsearchPage) (retmax : Nat) (hpos : 0 < retmax)
    (total : Nat) (retstart : Nat) : List Chars × List Nat :=
  if retstart + retmax < total then
    ((pages retstart).idlist ++
       (esearchGo pages retmax hpos total (retstart + retmax)).1,
     retstart :: (esearchGo pages retmax hpos total (retstart + retmax)).2)
  else ((pages retstart).idlist, [retstart])
termination_by total - retstart
decreasing_by omega

/-- `fetch_pubmed_ids` from `core.py`, as a function of the ESearch page
oracle; the total count is read from the first page only. -/
def fetch_pubmed_ids (pages : Nat → EsearchPage) (retmax : Nat)
    (hpos : 0 < retmax) : List Chars × List Nat :=
  esearchGo pages retmax hpos (pages 0).count 0

theorem esearchGo_spec (pages : Nat → EsearchPage) (retmax : Nat)
    (hpos : 0 < retmax) (total : Nat) :
    ∀ (fuel retstart : Nat), total - retstart ≤ fuel →
      (esearchGo pages retmax hpos total retstart).2.head? = some retstart ∧
      List.Chain' (fun a b => b = a + retmax)
        (esearchGo pages retmax hpos total retstart).2 ∧
      (∀ o ∈ (esearchGo pages retmax hpos total retstart).2.dropLast,
        o + retmax < total) ∧
      (∃ x, (esearchGo pages retmax hpos total retstart).2.getLast? = some x ∧
        total ≤ x + retmax) ∧
      (esearchGo pages retmax hpos total retstart).1 =
        ((esearchGo pages retmax hpos total retstart).2.map
          fun o => (pages o).idlist).flatten := by
  intro fuel
  induction fuel with
  | zero =>
    intro retstart hle
    have hstop : ¬ retstart + retmax < total := by omega
    rw [esearchGo, if_neg hstop]
    refine ⟨rfl, List.chain'_singleton _, by simp, ⟨retstart, rfl, by omega⟩, by simp⟩
  | succ n ih =>
    intro retstart hle
    by_cases hlt : retstart + retmax < total
    · have hrec := ih (retstart + retmax) (by omega)
      obtain ⟨hhead, hchain, hdrop, ⟨x, hx, hxle⟩, hflat⟩ := hrec
      rw [esearchGo, if_pos hlt]
      obtain ⟨hd, tl, htl⟩ : ∃ hd tl,
          (esearchGo pages retmax hpos total (retstart + retmax)).2 = hd :: tl := by
        cases hv : (esearchGo pages retmax hpos total (retstart + retmax)).2 with
        | nil => rw [hv] at hhead; simp at hhead
        | cons a b => exact ⟨a, b, rfl⟩
      have hhd : hd = retstart + retmax := by
        rw [htl] at hhead
        simpa using hhead
      subst hhd
      refine ⟨rfl, ?_, ?_, ?_, ?_⟩
      · rw [htl] at hchain ⊢
        exact List.chain'_cons.mpr ⟨rfl, hchain⟩
      · intro o ho
        rw [htl] at ho
        rw [List.dropLast_cons₂] at ho
        rcases List.mem_cons.mp ho with rfl | ho
        · exact hlt
        · rw [htl] at hdrop
          exact hdrop o ho
      · refine ⟨x, ?_, hxle⟩
        rw [htl] at hx ⊢
        rw [List.getLast?_cons_cons]
        exact hx
      · simp only [List.map_cons, List.flatten_cons]
        rw [hflat]
    · rw [esearchGo, if_neg hlt]
      refine ⟨rfl, List.chain'_singleton _, by simp,
        ⟨retstart, rfl, by omega⟩, by simp⟩

/-- C6: with total 250 and page size 100, `fetch_pubmed_ids` issues
exactly the three offsets 0, 100, 200 and returns the concatenation of
the three pages' id lists in response order; in general the offsets start
at 0, advance by `retmax`, continue exactly while the next offset is
below the total read from the first page, and the ids are the
concatenation of the per-offset id lists in order. -/
theorem c6_pagination_offsets_and_concatenation :
    (∀ pages : Nat → EsearchPage, (pages 0).count = 250 →
      (fetch_pubmed_ids pages 100 (by norm_num)).2 = [0, 100, 200] ∧
      (fetch_pubmed_ids pages 100 (by norm_num)).1 =
        (pages 0).idlist ++ ((pages 100).idlist ++ (pages 200).idlist)) ∧
    (∀ (pages : Nat → EsearchPage) (retmax : Nat) (hpos : 0 < retmax),
      (fetch_pubmed_ids pages retmax hpos).2.head? = some 0 ∧
      List.Chain' (fun a b => b = a + retmax)
        (fetch_pubmed_ids pages retmax hpos).2 ∧
      (∀ o ∈ (fetch_pubmed_ids pages retmax hpos).2.dropLast,
        o + retmax < (pages 0).count) ∧
      (∃ x, (fetch_pubmed_ids pages retmax hpos).2.getLast? = some x ∧
        (pages 0).count ≤ x + retmax) ∧
      (fetch_pubmed_ids pages retmax hpos).1 =
        ((fetch_pubmed_ids pages retmax hpos).2.map
          fun o => (pages o).idlist).flatten) := by
  constructor
  · intro pages h250
    have h0 : fetch_pubmed_ids pages 100 (by norm_num) =
        esearchGo pages 100 (by norm_num) 250 0 := by
      simp only [fetch_pubmed_ids, h250]
    rw [h0]
    rw [esearchGo, if_pos (show 0 + 100 < 250 by norm_num)]
    rw [esearchGo, if_pos (show 0 + 100 + 100 < 250 by norm_num)]
    rw [esearchGo, if_neg (show ¬ 0 + 100 + 100 + 100 < 250 by norm_num)]
    norm_num
  · intro pages retmax hpos
    exact esearchGo_spec pages retmax hpos (pages 0).count
      ((pages 0).count - 0) 0 (Nat.le_refl _)

/-- Witness for C6: a concrete page oracle reporting 250 results. -/
theorem c6_witness :
    ((fun _ => ({ count := 250, idlist := [lit "x"] } : EsearchPage)) 0).count =
      250 ∧
    (fetch_pubmed_ids (fun _ => ({ count := 250, idlist := [lit "x"] } :
      EsearchPage)) 100 (by norm_num)).2 = [0, 100, 200] :=
  ⟨rfl, (c6_pagination_offsets_and_concatenation.1 _ rfl).1⟩

/-- The batching loop of `fetch_pubmed_details`: one EFetch request per
chunk of at most 100 ids, parse every returned article, drop `none`
results, concatenate.  Also returns the requested batches, in order. -/
def fetchDetailsGo (w : World) (ids : List Chars) :
    List ParsedRecord × List (List Chars) :=
  if _hnil : ids = [] then ([], [])
  else
    let batch := ids.take 100
    let recs := (w.efetchResp batch).filterMap
      fun a => (parse_pubmed_article w a).1
    let rest := fetchDetailsGo w (ids.drop 100)
    (recs ++ rest.1, batch :: rest.2)
termination_by ids.length
decreasing_by
  simp only [List.length_drop]
  have := List.length_pos.mpr _hnil
  omega

/-- `fetch_pubmed_details` from `core.py`, as a function of the EFetch
response oracle in `w`. -/
def fetch_pubmed_details (w : World) (ids : List Chars) :
    List ParsedRecord × List (List Chars) :=
  fetchDetailsGo w ids

theorem fetchDetailsGo_spec (w : World) :
    ∀ (fuel : Nat) (ids : List Chars), ids.length ≤ fuel →
      (fetchDetailsGo w ids).2.flatten = ids ∧
      (∀ b ∈ (fetchDetailsGo w ids).2, b ≠ [] ∧ b.length ≤ 100) ∧
      (fetchDetailsGo w ids).1 =
        ((fetchDetailsGo w ids).2.map fun b =>
          (w.efetchResp b).filterMap
            fun a => (parse_pubmed_article w a).1).flatten := by
  intro fuel
  induction fuel with
  | zero =>
    intro ids hle
    have hnil : ids = [] := List.eq_nil_of_length_eq_zero (Nat.le_zero.mp hle)
    subst hnil
    rw [fetchDetailsGo, dif_pos rfl]
    exact ⟨rfl, by simp, rfl⟩
  | succ n ih =>
    intro ids hle
    by_cases hnil : ids = []
    · subst hnil
      rw [fetchDetailsGo, dif_pos rfl]
      exact ⟨rfl, by simp, rfl⟩
    · rw [fetchDetailsGo, dif_neg hnil]
      have hlen : (ids.drop 100).length ≤ n := by
        simp only [List.length_drop]
        have := List.length_pos.mpr hnil
        omega
      obtain ⟨hflat, hbatch, hres⟩ := ih (ids.drop 100) hlen
      refine ⟨?_, ?_, ?_⟩
      · simp only [List.flatten_cons, hflat, List.take_append_drop]
      · intro b hb
        simp only [List.mem_cons] at hb
        rcases hb with rfl | hb
        · constructor
          · intro htake
            apply hnil
            have := congrArg List.length htake
            simp only [List.length_take, List.length_nil] at this
            have hpos := List.length_pos.mpr hnil
            rcases Nat.min_eq_zero_iff.mp this.symm.symm with h | h
            · omega
            · exact List.eq_nil_of_length_eq_zero h
          · exact List.length_take_le 100 ids
        · exact hbatch b hb
      · simp only [List.map_cons, List.flatten_cons, hres]

/-- C9: `fetch_pubmed_details` requests consecutive non-empty batches of
at most 100 ids whose concatenation is exactly the input id list, in
order, and returns the concatenation, batch by batch, of the non-`none`
parse results of the articles each request returns, preserving upstream
document order. -/
theorem c9_batching_and_order :
    ∀ (w : World) (ids : List Chars),
      (fetch_pubmed_details w ids).2.flatten = ids ∧
      (∀ b ∈ (fetch_pubmed_details w ids).2, b ≠ [] ∧ b.length ≤ 100) ∧
      (fetch_pubmed_details w ids).1 =
        ((fetch_pubmed_details w ids).2.map fun b =>
          (w.efetchResp b).filterMap
            fun a => (parse_pubmed_article w a).1).flatten := by
  intro w ids
  exact fetchDetailsGo_spec w ids.length ids (Nat.le_refl _)

/-- Witness for C3: a concrete commercial affiliation, classified `true`,
with the characterization instantiated. -/
theorem c3_witness :
    is_non_academic_affiliation (some (lit "acme pharma")) = true ∧
    (lit "acme pharma" ≠ [] ∧
      (∀ w ∈ ACADEMIC_KEYWORDS,
        ¬ ∃ l r, toLowerStr (lit "acme pharma") = l ++ w ++ r) ∧
      (∃ w ∈ PHARMA_KEYWORDS,
        ∃ l r, toLowerStr (lit "acme pharma") = l ++ w ++ r)) :=
  ⟨by decide, (c3_classifier_characterization.2 (lit "acme pharma")).mp (by decide)⟩

/-- Witness for C9: a concrete two-id fetch. -/
theorem c9_witness :
    (fetch_pubmed_details noNetwork [lit "a", lit "b"]).2.flatten =
      [lit "a", lit "b"] ∧
    (∀ b ∈ (fetch_pubmed_details noNetwork [lit "a", lit "b"]).2,
      b ≠ [] ∧ b.length ≤ 100) ∧
    (fetch_pubmed_details noNetwork [lit "a", lit "b"]).1 =
      ((fetch_pubmed_details noNetwork [lit "a", lit "b"]).2.map fun b =>
        (noNetwork.efetchResp b).filterMap
          fun a => (parse_pubmed_article noNetwork a).1).flatten :=
  c9_batching_and_order noNetwork [lit "a", lit "b"]
